import Mathlib

/-!
Verification of the ForgeKit parser and metadata registry.

Strings are modelled at the byte level (`List Nat`, each element < 256),
matching the byte-driven Rust implementation (`&str` / `String` as UTF-8
byte sequences).  Rust's `to_lowercase` / `trim` / `is_ascii_whitespace`
are modelled on their ASCII behaviour, which is exact for all inputs the
library handles (function names are ASCII identifiers).
-/

namespace ForgeKit

/-- UTF-8 encoding of one code point, modelling `String::push(char)` on the
byte level (code points up to 0x10FFFF). -/
def encodeChar (n : Nat) : List Nat :=
  if n < 128 then [n]
  else if n < 2048 then [192 + n / 64, 128 + n % 64]
  else if n < 65536 then [224 + n / 4096, 128 + n / 64 % 64, 128 + n % 64]
  else [240 + n / 262144, 128 + n / 4096 % 64, 128 + n / 64 % 64, 128 + n % 64]

/-- UTF-8 bytes of a string literal, as natural numbers. -/
def bytes (s : String) : List Nat :=
  s.data.foldl (fun acc c => acc ++ encodeChar c.toNat) []

/-- ASCII lowercase on one byte, modelling `char::to_lowercase` for ASCII. -/
def toLowerByte (b : Nat) : Nat :=
  if 65 ≤ b ∧ b ≤ 90 then b + 32 else b

/-- `str::to_lowercase`, modelled bytewise (exact on ASCII). -/
def toLower (s : List Nat) : List Nat :=
  s.map toLowerByte

/-- `u8::is_ascii_whitespace`: space, \t, \n, form feed, \r. -/
def isAsciiWhitespaceByte (b : Nat) : Bool :=
  b == 32 || b == 9 || b == 10 || b == 12 || b == 13

/-- `char::is_whitespace` restricted to ASCII (used by `str::trim`). -/
def isTrimWhitespaceByte (b : Nat) : Bool :=
  b == 32 || (9 ≤ b && b ≤ 13)

/-- `str::trim`: strip leading and trailing whitespace. -/
def trimBytes (s : List Nat) : List Nat :=
  (s.dropWhile isTrimWhitespaceByte).reverse.dropWhile isTrimWhitespaceByte |>.reverse

/-- `[A-Za-z0-9_]`: identifier byte, as in `Parser::parse_identifier`. -/
def isIdentByte (b : Nat) : Bool :=
  (48 ≤ b && b ≤ 57) || (65 ≤ b && b ≤ 90) || (97 ≤ b && b ≤ 122) || b == 95

end ForgeKit

namespace ForgeKit

/-- `types::Arg`: one schema item of a function signature.  `serde_json::Value`
fields are modelled as byte strings. -/
structure Arg where
  name : List Nat
  description : List Nat := []
  rest : Bool := false
  required : Option Bool := none
  arg_type : List Nat := []
  condition : Option Bool := none
  arg_enum : Option (List (List Nat)) := none
  enum_name : Option (List Nat) := none
  pointer : Option Int := none
  pointer_property : Option (List Nat) := none
  extra : List (List Nat × List Nat) := []
deriving DecidableEq, Repr

/-- `types::Function`: one function signature record. -/
structure Function where
  name : List Nat
  version : Option (List Nat) := none
  description : List Nat := []
  brackets : Option Bool := none
  unwrap : Bool := false
  args : Option (List Arg) := none
  output : Option (List (List Nat)) := none
  category : Option (List Nat) := none
  aliases : Option (List (List Nat)) := none
  experimental : Option Bool := none
  examples : Option (List (List Nat)) := none
  deprecated : Option Bool := none
  extension : Option (List Nat) := none
  source_url : Option (List Nat) := none
  local_path : Option (List Nat) := none
  line : Option Nat := none
  extra : List (List Nat × List Nat) := []
deriving DecidableEq, Repr

/-- `types::EventField`. -/
structure EventField where
  name : List Nat
  description : List Nat := []
deriving DecidableEq, Repr

/-- `types::Event`. -/
structure Event where
  name : List Nat
  description : List Nat := []
  fields : Option (List EventField) := none
deriving DecidableEq, Repr

end ForgeKit

namespace ForgeKit

/-- `metadata::TrieNode`: children keyed by (lowercased) characters — modelled
as an association list in insertion order (one possible iteration order of the
Rust `HashMap`) — and an optional signature. -/
inductive TrieNode where
  | mk (children : List (Nat × TrieNode)) (value : Option Function)

namespace TrieNode

def children : TrieNode → List (Nat × TrieNode)
  | .mk ch _ => ch

def value : TrieNode → Option Function
  | .mk _ v => v

/-- The empty node (`TrieNode::default`). -/
def empty : TrieNode := .mk [] none

/-- `children.get(&ch)`: first match in the association list. -/
def getChild : List (Nat × TrieNode) → Nat → Option TrieNode
  | [], _ => none
  | (c, t) :: rest, ch => if c = ch then some t else getChild rest ch

/-- `children.entry(ch).or_insert(...)` then writing the updated child back:
replace the first binding of `ch`, or append a new one. -/
def updateChild : List (Nat × TrieNode) → Nat → TrieNode → List (Nat × TrieNode)
  | [], ch, t => [(ch, t)]
  | (c, t0) :: rest, ch, t =>
    if c = ch then (ch, t) :: rest else (c, t0) :: updateChild rest ch t

/-- The walk of `FunctionTrie::insert` over an already-lowercased key; the
`Bool` records whether the terminal slot was empty (`node.value.is_none()`),
which drives the count increment. -/
def insertNode : TrieNode → List Nat → Function → TrieNode × Bool
  | .mk ch v, [], f => (.mk ch (some f), v.isNone)
  | .mk ch v, c :: ks, f =>
    let child := (getChild ch c).getD empty
    let res := insertNode child ks f
    (.mk (updateChild ch c res.1) v, res.2)

/-- The walk of `FunctionTrie::get_exact` over an already-lowercased key. -/
def lookupNode : TrieNode → List Nat → Option Function
  | .mk _ v, [] => v
  | .mk ch _, c :: ks =>
    match getChild ch c with
    | some t => lookupNode t ks
    | none => none

/-- The walk shared by `get_completions`: descend along a lowercased prefix. -/
def navigate : TrieNode → List Nat → Option TrieNode
  | t, [] => some t
  | .mk ch _, c :: ks =>
    match getChild ch c with
    | some t => navigate t ks
    | none => none

end TrieNode

/-- `FunctionTrie`: root node plus the count of occupied terminals. -/
structure FunctionTrie where
  root : TrieNode
  count : Nat

namespace FunctionTrie

/-- `FunctionTrie::new`. -/
def new : FunctionTrie := ⟨TrieNode.empty, 0⟩

/-- `FunctionTrie::insert`: keys are lowercased; the count is incremented only
when the terminal slot transitions from empty to occupied. -/
def insert (t : FunctionTrie) (key : List Nat) (func : Function) : FunctionTrie :=
  let res := TrieNode.insertNode t.root (toLower key) func
  ⟨res.1, t.count + (if res.2 then 1 else 0)⟩

/-- `FunctionTrie::get_exact` (case-insensitive). -/
def get_exact (t : FunctionTrie) (key : List Nat) : Option Function :=
  TrieNode.lookupNode t.root (toLower key)

/-- The loop of `FunctionTrie::get_prefix`: walk the lowercased text from the
root, recording the last node that bears a signature together with the
consumed prefix, and stop at the first non-matching character. -/
def prefixWalk : TrieNode → List Nat → List Nat →
    Option (List Nat × Function) → Option (List Nat × Function)
  | _, [], _, last => last
  | node, c :: cs, matched, last =>
    match TrieNode.getChild node.children c with
    | some next =>
      let matched' := matched ++ [c]
      let last' := match next.value with
        | some f => some (matched', f)
        | none => last
      prefixWalk next cs matched' last'
    | none => last

/-- `FunctionTrie::get_prefix`: longest registered name that is a prefix of
`text`, matching strictly from the start of `text`. -/
def get_prefix (t : FunctionTrie) (text : List Nat) : Option (List Nat × Function) :=
  prefixWalk t.root (toLower text) [] none

mutual

/-- `FunctionTrie::collect_all`, with `collectChildren` for the child loop. -/
def collect_all : TrieNode → List Function
  | .mk ch v => (match v with | some f => [f] | none => []) ++ collectChildren ch

/-- The `for child in node.children.values()` loop of `collect_all`. -/
def collectChildren : List (Nat × TrieNode) → List Function
  | [] => []
  | (_, t) :: rest => collect_all t ++ collectChildren rest

end

/-- `FunctionTrie::get_completions`. -/
def get_completions (t : FunctionTrie) (pre : List Nat) : List Function :=
  match TrieNode.navigate t.root (toLower pre) with
  | some node => collect_all node
  | none => []

/-- `FunctionTrie::all_functions`. -/
def all_functions (t : FunctionTrie) : List Function :=
  collect_all t.root

/-- `FunctionTrie::len`. -/
def len (t : FunctionTrie) : Nat := t.count

/-- `FunctionTrie::clear`. -/
def clear (_t : FunctionTrie) : FunctionTrie := new

end FunctionTrie

/-- `metadata::MetadataError` (message payloads as byte strings). -/
inductive MetadataError where
  | NetworkError (msg : List Nat)
  | ParseError (msg : List Nat)
  | NotFound (msg : List Nat)
  | InvalidData (msg : List Nat)
  | CacheError (msg : List Nat)
deriving DecidableEq, Repr

/-- `DashMap::insert`: overwrite the binding of `k`, or append a new one.
The map is modelled as an association list with unique keys. -/
def mapInsert {α : Type} : List (List Nat × α) → List Nat → α → List (List Nat × α)
  | [], k, v => [(k, v)]
  | (k0, v0) :: rest, k, v =>
    if k0 = k then (k, v) :: rest else (k0, v0) :: mapInsert rest k v

/-- `DashMap::get` (first match). -/
def mapLookup {α : Type} : List (List Nat × α) → List Nat → Option α
  | [], _ => none
  | (k0, v0) :: rest, k => if k0 = k then some v0 else mapLookup rest k

/-- `metadata::MetadataCache`: the serialized registry snapshot. -/
structure MetadataCache where
  functions : List Function
  enums : List (List Nat × List (List Nat))
  events : List Event
  version : Nat
deriving Repr

/-- `MetadataCache::VERSION`. -/
def MetadataCache.VERSION : Nat := 1

/-- `MetadataCache::new`. -/
def MetadataCache.new (functions : List Function)
    (enums : List (List Nat × List (List Nat))) (events : List Event) :
    MetadataCache :=
  ⟨functions, enums, events, MetadataCache.VERSION⟩

/-- `metadata::MetadataManager`: trie, enum map and event map (sources and
the fetcher are I/O collaborators outside the model). -/
structure MetadataManager where
  trie : FunctionTrie
  enums : List (List Nat × List (List Nat))
  events : List (List Nat × Event)

/-- The `$`-prefix rule applied to aliases (`if alias.starts_with('$')` …):
prepend `$` (byte 36) when missing. -/
def canonicalize (s : List Nat) : List Nat :=
  if s.head? = some 36 then s else 36 :: s

namespace MetadataManager

/-- `MetadataManager::new`. -/
def new : MetadataManager := ⟨FunctionTrie.new, [], []⟩

/-- The body of the `for func in functions` loop of
`MetadataManager::add_functions`: register the record under its own name
(as-is), then register each alias as a derived record whose `name` is the
alias with a `$` prefix ensured. -/
def registerFunction (t : FunctionTrie) (func : Function) : FunctionTrie :=
  let t1 := t.insert func.name func
  match func.aliases with
  | none => t1
  | some aliases =>
    aliases.foldl
      (fun acc al => acc.insert (canonicalize al) { func with name := canonicalize al })
      t1

/-- `MetadataManager::add_functions`. -/
def add_functions (m : MetadataManager) (functions : List Function) :
    MetadataManager :=
  { m with trie := functions.foldl registerFunction m.trie }

/-- `MetadataManager::get_exact`. -/
def get_exact (m : MetadataManager) (name : List Nat) : Option Function :=
  FunctionTrie.get_exact m.trie name

/-- `MetadataManager::get_prefix`. -/
def get_prefix (m : MetadataManager) (text : List Nat) :
    Option (List Nat × Function) :=
  FunctionTrie.get_prefix m.trie text

/-- `MetadataManager::get`: exact match first, then prefix match. -/
def get (m : MetadataManager) (name : List Nat) : Option Function :=
  match FunctionTrie.get_exact m.trie name with
  | some func => some func
  | none => (FunctionTrie.get_prefix m.trie name).map (fun p => p.2)

/-- `MetadataManager::get_with_match`. -/
def get_with_match (m : MetadataManager) (name : List Nat) :
    Option (List Nat × Function) :=
  match FunctionTrie.get_exact m.trie name with
  | some func => some (name, func)
  | none => FunctionTrie.get_prefix m.trie name

/-- `MetadataManager::get_completions`. -/
def get_completions (m : MetadataManager) (pre : List Nat) : List Function :=
  FunctionTrie.get_completions m.trie pre

/-- `MetadataManager::all_functions`. -/
def all_functions (m : MetadataManager) : List Function :=
  FunctionTrie.all_functions m.trie

/-- `MetadataManager::get_enum`. -/
def get_enum (m : MetadataManager) (name : List Nat) : Option (List (List Nat)) :=
  mapLookup m.enums name

/-- `MetadataManager::all_enums` (snapshot of the concurrent map). -/
def all_enums (m : MetadataManager) : List (List Nat × List (List Nat)) :=
  m.enums

/-- `MetadataManager::get_event`. -/
def get_event (m : MetadataManager) (name : List Nat) : Option Event :=
  mapLookup m.events name

/-- `MetadataManager::all_events`. -/
def all_events (m : MetadataManager) : List Event :=
  m.events.map (fun e => e.2)

/-- `MetadataManager::function_count`. -/
def function_count (m : MetadataManager) : Nat :=
  FunctionTrie.len m.trie

/-- `MetadataManager::clear`. -/
def clear (m : MetadataManager) : MetadataManager :=
  { m with trie := FunctionTrie.clear m.trie, enums := [], events := [] }

/-- `MetadataManager::export_cache`. -/
def export_cache (m : MetadataManager) : MetadataCache :=
  MetadataCache.new (all_functions m) (all_enums m) (all_events m)

/-- `MetadataManager::import_cache`: on a version match, clear and repopulate;
aliases are re-materialized by `add_functions`. -/
def import_cache (m : MetadataManager) (cache : MetadataCache) :
    Except MetadataError MetadataManager :=
  if cache.version ≠ MetadataCache.VERSION then
    .error (.CacheError (bytes "Incompatible cache version"))
  else
    let m1 := add_functions (clear m) cache.functions
    let m2 := { m1 with
      enums := cache.enums.foldl (fun acc p => mapInsert acc p.1 p.2) m1.enums
      events := cache.events.foldl (fun acc e => mapInsert acc e.name e) m1.events }
    .ok m2

end MetadataManager

end ForgeKit

namespace ForgeKit

/-- `parser::Span`: a half-open byte range (`end` is `stop`, a Lean keyword). -/
structure Span where
  start : Nat
  stop : Nat
deriving DecidableEq, Repr

/-- `Span::offset`. -/
def Span.offset (s : Span) (off : Nat) : Span :=
  ⟨s.start + off, s.stop + off⟩

/-- `Span::len`. -/
def Span.len (s : Span) : Nat := s.stop - s.start

/-- `parser::Modifiers`. -/
structure Modifiers where
  silent : Bool := false
  negated : Bool := false
  count : Option (List Nat) := none
  span : Option Span := none
deriving DecidableEq, Repr

mutual

/-- `parser::AstNode`. -/
inductive AstNode where
  | program (body : List AstNode) (span : Span)
  | text (content : List Nat) (span : Span)
  | functionCall (name : List Nat) (name_span : Span) (modifier_span : Option Span)
      (args_span : Option Span) (args : Option (List Argument))
      (modifiers : Modifiers) (full_span : Span) (span : Span)
  | javascript (code : List Nat) (span : Span)
  | escaped (content : List Nat) (span : Span)

/-- `parser::Argument`: child nodes plus the covered span. -/
inductive Argument where
  | mk (parts : List AstNode) (span : Span)

end

/-- `AstNode::span`. -/
def AstNode.span : AstNode → Span
  | .program _ s | .text _ s | .functionCall _ _ _ _ _ _ _ s
  | .javascript _ s | .escaped _ s => s

def Argument.parts : Argument → List AstNode
  | .mk parts _ => parts

def Argument.span : Argument → Span
  | .mk _ s => s

/-- `Argument::is_empty`: every part is a whitespace-only `Text` node. -/
def Argument.is_empty (a : Argument) : Bool :=
  a.parts.all fun part =>
    match part with
    | .text content _ => (trimBytes content).isEmpty
    | _ => false

/-- `Argument::as_text`: literal text value if the argument is purely text. -/
def Argument.as_text (a : Argument) : Option (List Nat) :=
  match a.parts with
  | [AstNode.text content _] => some content
  | parts =>
    if parts.all (fun p => match p with | AstNode.text _ _ => true | _ => false) then
      some (parts.foldl
        (fun acc p => match p with | AstNode.text c _ => acc ++ c | _ => acc) [])
    else none

mutual

/-- `AstNode::offset_spans`. -/
def offsetNode (off : Nat) : AstNode → AstNode
  | .program body span => .program (offsetNodes off body) (span.offset off)
  | .text c span => .text c (span.offset off)
  | .functionCall name ns ms asp args mods fs span =>
    .functionCall name (ns.offset off) (ms.map (fun s => Span.offset s off))
      (asp.map (fun s => Span.offset s off))
      (match args with
       | none => none
       | some l => some (offsetArgs off l))
      mods (fs.offset off) (span.offset off)
  | .javascript c span => .javascript c (span.offset off)
  | .escaped c span => .escaped c (span.offset off)
termination_by structural n => n

def offsetNodes (off : Nat) : List AstNode → List AstNode
  | [] => []
  | n :: rest => offsetNode off n :: offsetNodes off rest
termination_by structural l => l

def offsetArg (off : Nat) : Argument → Argument
  | .mk parts span => .mk (offsetNodes off parts) (span.offset off)
termination_by structural a => a

def offsetArgs (off : Nat) : List Argument → List Argument
  | [] => []
  | a :: rest => offsetArg off a :: offsetArgs off rest
termination_by structural l => l

end

/-- `parser::ErrorKind`. -/
inductive ErrorKind where
  | Syntax
  | ArgumentCount
  | EnumValue
  | UnknownFunction
  | BracketUsage
deriving DecidableEq, Repr

/-- `parser::ParseError`. -/
structure ParseError where
  message : List Nat
  span : Span
  kind : ErrorKind
deriving DecidableEq, Repr

/-- `ParseError::syntax`. -/
def ParseError.syntaxError (message : List Nat) (span : Span) : ParseError :=
  ⟨message, span, .Syntax⟩

/-- `parser::ValidationConfig`. -/
structure ValidationConfig where
  validate_arguments : Bool := false
  validate_enums : Bool := false
  validate_functions : Bool := false
  validate_brackets : Bool := false
deriving DecidableEq, Repr

/-- `ValidationConfig::is_enabled`. -/
def ValidationConfig.is_enabled (c : ValidationConfig) : Bool :=
  c.validate_arguments || c.validate_enums || c.validate_functions
    || c.validate_brackets

end ForgeKit

namespace ForgeKit

/-- The run of consecutive `\` bytes immediately preceding `byte_idx`
(the loop of `parser::is_escaped`). -/
def countBackslashesBefore (code : List Nat) : Nat → Nat
  | 0 => 0
  | j + 1 => if code[j]? = some 92 then countBackslashesBefore code j + 1 else 0

/-- `str::is_char_boundary` on the byte model. -/
def isCharBoundary (code : List Nat) (i : Nat) : Bool :=
  if i = 0 then true
  else
    match code[i]? with
    | none => i == code.length
    | some b => b < 128 || 192 ≤ b

/-- `parser::is_escaped`: true iff an odd number of consecutive `\` bytes
precedes `byte_idx` (false off char boundaries or at 0). -/
def is_escaped (code : List Nat) (byte_idx : Nat) : Bool :=
  if byte_idx = 0 || !isCharBoundary code byte_idx then false
  else countBackslashesBefore code byte_idx % 2 != 0

/-- `Parser::slice` (`&source[start..end.min(len)]`). -/
def slice (source : List Nat) (start eend : Nat) : List Nat :=
  (source.take (min eend source.length)).drop start

/-- The scan of `Parser::find_code_block_start` from position `p`.  The Rust
loops are driven by a cursor bounded by the input length; the embedding makes
that bound explicit as a structural `fuel` argument (always ample, see the
wrappers below), keeping every definition kernel-reducible. -/
def find_code_block_start_loop : Nat → List Nat → Nat → Option Nat
  | 0, _, _ => none
  | fuel + 1, source, p =>
    if p + 7 ≤ source.length then
      let preceded_by_valid : Bool :=
        p == 0 ||
          (match source[p - 1]? with
           | some b => isAsciiWhitespaceByte b || b == 123 || b == 44
           | none => false)
      if slice source p (p + 7) = bytes "code: `" ∧ preceded_by_valid
          ∧ ¬ is_escaped source (p + 6) then
        some p
      else
        find_code_block_start_loop fuel source (p + 1)
    else none

/-- `Parser::find_code_block_start` starting at `p` (the cursor advances at
least one byte per iteration, so `source.length + 1` fuel is always ample). -/
def find_code_block_start_from (source : List Nat) (p : Nat) : Option Nat :=
  find_code_block_start_loop (source.length + 1) source p

/-- The scan of `Parser::find_code_block_end` from position `p`. -/
def find_code_block_end_loop : Nat → List Nat → Nat → Option Nat
  | 0, _, _ => none
  | fuel + 1, source, p =>
    if p < source.length then
      if source[p]? = some 96 ∧ ¬ is_escaped source p then some p
      else find_code_block_end_loop fuel source (p + 1)
    else none

/-- `Parser::find_code_block_end` starting at `p`. -/
def find_code_block_end_from (source : List Nat) (p : Nat) : Option Nat :=
  find_code_block_end_loop (source.length + 1) source p

/-- The loop of `Parser::find_matching_bracket` (depth starts at 1; a `\`
skips two bytes). -/
def find_matching_bracket_loop : Nat → List Nat → Nat → Nat → Option Nat
  | 0, _, _, _ => none
  | fuel + 1, source, p, depth =>
    if p < source.length then
      if source[p]? = some 92 then
        find_matching_bracket_loop fuel source (p + 2) depth
      else if source[p]? = some 91 ∧ ¬ is_escaped source p then
        find_matching_bracket_loop fuel source (p + 1) (depth + 1)
      else if source[p]? = some 93 ∧ ¬ is_escaped source p then
        if depth = 1 then some p
        else find_matching_bracket_loop fuel source (p + 1) (depth - 1)
      else find_matching_bracket_loop fuel source (p + 1) depth
    else none

/-- `Parser::find_matching_bracket`. -/
def find_matching_bracket (source : List Nat) (open_pos : Nat) : Option Nat :=
  find_matching_bracket_loop (source.length + 1) source (open_pos + 1) 1

/-- The loop of `Parser::find_matching_brace` (depth starts at 1). -/
def find_matching_brace_loop : Nat → List Nat → Nat → Nat → Option Nat
  | 0, _, _, _ => none
  | fuel + 1, source, p, depth =>
    if p < source.length then
      if source[p]? = some 123 then
        find_matching_brace_loop fuel source (p + 1) (depth + 1)
      else if source[p]? = some 125 then
        if depth = 1 then some p
        else find_matching_brace_loop fuel source (p + 1) (depth - 1)
      else find_matching_brace_loop fuel source (p + 1) depth
    else none

/-- `Parser::find_matching_brace`. -/
def find_matching_brace (source : List Nat) (open_pos : Nat) : Option Nat :=
  find_matching_brace_loop (source.length + 1) source (open_pos + 1) 1

/-- The first backwards walk of `Parser::is_function_bracket`: skip the run of
identifier bytes ending just before `i`. -/
def skipIdentBack (bs : List Nat) : Nat → Nat
  | 0 => 0
  | j + 1 => if isIdentByte ((bs[j]?).getD 0) then skipIdentBack bs j else j + 1

/-- The inner `while i > 1 && d > 0` loop of `Parser::is_function_bracket`,
scanning backwards over a bracket-balanced `@[…]` group (`i` decreases each
iteration, so `i` fuel is always ample). -/
def modGroupBackLoop : Nat → List Nat → Nat → Nat → Nat
  | 0, _, i, _ => i
  | fuel + 1, bs, i, d =>
    if i > 1 ∧ d > 0 then
      if (bs[i - 2]?).getD 0 = 93 then modGroupBackLoop fuel bs (i - 1) (d + 1)
      else if (bs[i - 2]?).getD 0 = 91 then modGroupBackLoop fuel bs (i - 1) (d - 1)
      else modGroupBackLoop fuel bs (i - 1) d
    else i

def modGroupBack (bs : List Nat) (i d : Nat) : Nat :=
  modGroupBackLoop i bs i d

/-- The outer modifier loop of `Parser::is_function_bracket`: walk backwards
over `!`, `#` and `@[…]` atoms; `none` models `return false`. -/
def modifiersBackLoop : Nat → List Nat → Nat → Option Nat
  | 0, _, i => some i
  | fuel + 1, bs, i =>
    if i > 0 then
      if (bs[i - 1]?).getD 0 = 33 ∨ (bs[i - 1]?).getD 0 = 35 then
        modifiersBackLoop fuel bs (i - 1)
      else if (bs[i - 1]?).getD 0 = 93 then
        let i2 := modGroupBack bs i 1
        if i2 < 2 ∨ (bs[i2 - 2]?).getD 0 ≠ 64 then none
        else modifiersBackLoop fuel bs (i2 - 2)
      else some i
    else some i

def modifiersBack (bs : List Nat) (i : Nat) : Option Nat :=
  modifiersBackLoop (i + 1) bs i

/-- `Parser::is_function_bracket`: a `[` at `idx` is function-attached iff,
reading backwards over identifier bytes then modifier atoms, an unescaped `$`
is reached. -/
def is_function_bracket (content : List Nat) (idx : Nat) : Bool :=
  if idx = 0 ∨ content[idx]? ≠ some 91 then false
  else
    let i1 := skipIdentBack content idx
    match modifiersBack content i1 with
    | none => false
    | some i =>
      decide (i > 0) && ((content[i - 1]?).getD 0 == 36)
        && (i == 1 || (content[i - 2]?).getD 0 != 92)

/-- `Parser::is_escape_function` (`c`, `C`, `escape`), on name bytes. -/
def is_escape_function (name : List Nat) : Bool :=
  name == [99] || name == [67] || name == bytes "escape"

/-- The forward scan of `Parser::parse_identifier`: first non-identifier
position at or after `p`. -/
def identEndLoop : Nat → List Nat → Nat → Nat
  | 0, _, p => p
  | fuel + 1, source, p =>
    if p < source.length then
      if isIdentByte ((source[p]?).getD 0) then identEndLoop fuel source (p + 1)
      else p
    else p

def identEnd (source : List Nat) (p : Nat) : Nat :=
  identEndLoop (source.length + 1) source p

/-- The `!`/`#` skip at the start of `Parser::find_escape_function_end`. -/
def skipModBytesLoop : Nat → List Nat → Nat → Nat
  | 0, _, p => p
  | fuel + 1, source, p =>
    if p < source.length then
      if (source[p]?).getD 0 = 33 ∨ (source[p]?).getD 0 = 35 then
        skipModBytesLoop fuel source (p + 1)
      else p
    else p

def skipModBytes (source : List Nat) (p : Nat) : Nat :=
  skipModBytesLoop (source.length + 1) source p

/-- `Parser::find_escape_function_end`: from a `$` at `start`, recognize an
escape-function call (`$c[…]`, `$C[…]`, `$escape[…]`, allowing `!`/`#`
modifiers) and return the position of its matching `]`. -/
def find_escape_function_end (content : List Nat) (start : Nat) : Option Nat :=
  let p1 := skipModBytes content (start + 1)
  let name_start := p1
  let p2 := identEnd content p1
  if ¬ is_escape_function (slice content name_start p2) ∨ content[p2]? ≠ some 91 then
    none
  else
    find_matching_bracket_loop (content.length + 1) content (p2 + 1) 1

/-- The scan of `Parser::parse_text`: stop at `\` or at an unescaped `$`. -/
def findTextEndLoop : Nat → List Nat → Nat → Nat
  | 0, _, p => p
  | fuel + 1, source, p =>
    if p < source.length then
      if source[p]? = some 92 then p
      else if source[p]? = some 36 ∧ ¬ is_escaped source p then p
      else findTextEndLoop fuel source (p + 1)
    else p

def findTextEnd (source : List Nat) (p : Nat) : Nat :=
  findTextEndLoop (source.length + 1) source p

end ForgeKit

namespace ForgeKit

/-- `parser::Parser`: the parser state (source, cursor, accumulated
diagnostics, configuration, optional registry handle). -/
structure Parser where
  source : List Nat
  pos : Nat
  errors : List ParseError
  config : ValidationConfig
  metadata : Option MetadataManager

namespace Parser

/-- `Parser::new`. -/
def new (source : List Nat) : Parser :=
  ⟨source, 0, [], {}, none⟩

/-- `Parser::with_config`. -/
def with_config (source : List Nat) (config : ValidationConfig) : Parser :=
  ⟨source, 0, [], config, none⟩

/-- `Parser::with_validation`. -/
def with_validation (source : List Nat) (config : ValidationConfig)
    (metadata : MetadataManager) : Parser :=
  ⟨source, 0, [], config, some metadata⟩

/-- `Parser::is_eof`. -/
def is_eof (p : Parser) : Bool :=
  p.pos ≥ p.source.length

/-- `Parser::current_byte`. -/
def current_byte (p : Parser) : Option Nat :=
  p.source[p.pos]?

/-- `Parser::peek_byte`. -/
def peek_byte (p : Parser) (off : Nat) : Option Nat :=
  p.source[p.pos + off]?

/-- `self.errors.push(e)`. -/
def pushError (p : Parser) (e : ParseError) : Parser :=
  { p with errors := p.errors ++ [e] }

end Parser

/-- Offset a diagnostic's span (`error.span.offset(off)`). -/
def offsetError (off : Nat) (e : ParseError) : ParseError :=
  { e with span := e.span.offset off }

/-- Decimal digits of a number, as `format!("{}", n)` renders it. -/
def natBytes (n : Nat) : List Nat :=
  bytes (toString n)

/-- `{:?}` rendering of one string (quotes around it; escaping of inner
quotes is elided, no enum value in the sources contains one). -/
def debugQuote (s : List Nat) : List Nat :=
  34 :: s ++ [34]

/-- `{:?}` rendering of a `Vec<String>`. -/
def debugList (vs : List (List Nat)) : List Nat :=
  [91] ++ (List.intersperse (bytes ", ") (vs.map debugQuote)).foldl
    (fun acc s => acc ++ s) [] ++ [93]

/-- The `let enum_values` resolution step of `Parser::validate_enum_value`:
a named reference goes through the registry, else the inline enum is used. -/
def resolveEnumValues (p : Parser) (func_arg : Arg) : Option (List (List Nat)) :=
  match func_arg.enum_name with
  | some enum_name =>
    match p.metadata with
    | some metadata => MetadataManager.get_enum metadata enum_name
    | none => none
  | none => func_arg.arg_enum

/-- `Parser::validate_enum_value`: skip non-required empty arguments; resolve
the enum (named reference through the registry, else the inline enum); flag a
non-empty trimmed literal value absent from it. -/
def validate_enum_value (p : Parser) (func_name : List Nat) (arg : Argument)
    (func_arg : Arg) (name_span : Span) : Parser :=
  if ¬ (func_arg.required.getD false) ∧ arg.is_empty then p
  else
    match resolveEnumValues p func_arg with
    | some valid_values =>
      match arg.as_text with
      | some text_value =>
        let trimmed := trimBytes text_value
        if trimmed ≠ [] ∧ ¬ valid_values.contains trimmed then
          p.pushError ⟨bytes "Invalid value for " ++ func_name
            ++ bytes " argument " ++ func_arg.name ++ bytes ": expected one of "
            ++ debugList valid_values, name_span, .EnumValue⟩
        else p
      | none => p
    | none => p

/-- The `for (i, provided_arg)` enum loop of `Parser::validate_arguments`:
positional schema item, or the last (rest) item for trailing positions. -/
def validateEnumsLoop (func_name : List Nat) (func_args : List Arg)
    (has_rest : Bool) (name_span : Span) :
    Parser → List Argument → Nat → Parser
  | p, [], _ => p
  | p, arg :: rest, i =>
    let p' :=
      match func_args[i]? with
      | some fa => validate_enum_value p func_name arg fa name_span
      | none =>
        if has_rest then
          match func_args.getLast? with
          | some fa => validate_enum_value p func_name arg fa name_span
          | none => p
        else p
    validateEnumsLoop func_name func_args has_rest name_span p' rest (i + 1)

/-- `Parser::validate_arguments`: argument-count check then enum checks. -/
def validate_arguments (p : Parser) (func_name : List Nat)
    (provided_args : List Argument) (func_args : List Arg) (name_span : Span) :
    Parser :=
  let provided_count := provided_args.length
  let has_rest := func_args.any (fun a => a.rest)
  let required_count :=
    (func_args.filter (fun a => a.required.getD false ∧ ¬ a.rest)).length
  let p1 :=
    if p.config.validate_arguments then
      if provided_count < required_count then
        p.pushError ⟨func_name ++ bytes " requires at least "
          ++ natBytes required_count ++ bytes " argument(s), got "
          ++ natBytes provided_count, name_span, .ArgumentCount⟩
      else if ¬ has_rest ∧ provided_count > func_args.length then
        p.pushError ⟨func_name ++ bytes " accepts at most "
          ++ natBytes func_args.length ++ bytes " argument(s), got "
          ++ natBytes provided_count, name_span, .ArgumentCount⟩
      else p
    else p
  if p1.config.validate_enums then
    validateEnumsLoop func_name func_args has_rest name_span p1 provided_args 0
  else p1

/-- `Parser::validate_function_call`: bracket-policy check (`Some(true)` =
required, `Some(false)` = optional, `None` = forbidden), then argument
count/enum checks when brackets were supplied. -/
def validate_function_call (p : Parser) (name : List Nat) (func : Function)
    (args : Option (List Argument)) (has_brackets : Bool) (name_span : Span) :
    Parser :=
  let p1 :=
    if p.config.validate_brackets then
      match func.brackets with
      | some true =>
        if ¬ has_brackets then
          p.pushError ⟨name ++ bytes " requires brackets", name_span,
            .BracketUsage⟩
        else p
      | some false => p
      | none =>
        if has_brackets then
          p.pushError ⟨name ++ bytes " does not accept brackets", name_span,
            .BracketUsage⟩
        else p
    else p
  if (p1.config.validate_arguments || p1.config.validate_enums) ∧ has_brackets then
    match args, func.args with
    | some provided, some func_args =>
      validate_arguments p1 name provided func_args name_span
    | _, _ => p1
  else p1

end ForgeKit

namespace ForgeKit

/-- `Parser::parse_escape_sequence` (always yields a node in the source). -/
def parse_escape_sequence (p : Parser) : AstNode × Parser :=
  let start := p.pos
  let p1 : Parser := { p with pos := p.pos + 1 }
  match p1.current_byte with
  | some 92 =>
    (.text [92] ⟨start, start + 2⟩, { p1 with pos := p1.pos + 1 })
  | some b =>
    if b = 36 ∨ b = 91 ∨ b = 93 ∨ b = 59 ∨ b = 96 then
      (.text (slice p1.source (start + 1) (start + 2)) ⟨start, start + 2⟩,
        { p1 with pos := p1.pos + 1 })
    else
      (.text [92] ⟨start, start + 1⟩, p1)
  | none => (.text [92] ⟨start, start + 1⟩, p1)

/-- `Parser::parse_javascript`. -/
def parse_javascript (p : Parser) : AstNode × Parser :=
  let start := p.pos
  let p1 : Parser := { p with pos := p.pos + 2 }
  let brace_start := p1.pos - 1
  match find_matching_brace p1.source brace_start with
  | some e =>
    (.javascript (slice p1.source (brace_start + 1) e) ⟨start, e + 1⟩,
      { p1 with pos := e + 1 })
  | none =>
    let p2 :=
      if p1.config.validate_brackets then
        p1.pushError (.syntaxError (bytes "Unclosed JavaScript expression")
          ⟨start, p1.source.length⟩)
      else p1
    (.javascript [] ⟨start, p2.source.length⟩, { p2 with pos := p2.source.length })

/-- `Parser::parse_text`. -/
def parse_text (p : Parser) : Option AstNode × Parser :=
  let start := p.pos
  let e := findTextEnd p.source p.pos
  let p' : Parser := { p with pos := e }
  if e > start then
    (some (.text (slice p.source start e) ⟨start, e⟩), p')
  else (none, p')

/-- `Parser::parse_escape_function` (`$c[…]` / `$C[…]` / `$escape[…]`). -/
def parse_escape_function (p : Parser) (start : Nat) (name : List Nat)
    (name_span : Span) : AstNode × Parser :=
  if p.current_byte ≠ some 91 then
    let p1 :=
      if p.config.validate_brackets then
        p.pushError ⟨36 :: name ++ bytes " requires brackets", name_span,
          .BracketUsage⟩
      else p
    (.text (slice p1.source start p1.pos) ⟨start, p1.pos⟩, p1)
  else
    let bracket_start := p.pos
    let p1 : Parser := { p with pos := p.pos + 1 }
    match find_matching_bracket p1.source bracket_start with
    | some e =>
      (.escaped (slice p1.source (bracket_start + 1) e) ⟨start, e + 1⟩,
        { p1 with pos := e + 1 })
    | none =>
      let p2 :=
        if p1.config.validate_brackets then
          p1.pushError (.syntaxError (bytes "Unclosed '[' for $" ++ name) name_span)
        else p1
      (.escaped [] ⟨start, p2.source.length⟩, { p2 with pos := p2.source.length })

mutual

/-- The `while !self.is_eof()` loop of `Parser::parse_forge_script`; `fuel`
bounds the recursion depth of the embedding (the Rust loops are bounded by
the input length). -/
def parseForgeScriptLoop : Nat → Parser → List AstNode → List AstNode × Parser
  | 0, p, acc => (acc, p)
  | fuel + 1, p, acc =>
    if p.is_eof then (acc, p)
    else
      match parse_forge_node fuel p with
      | (some n, p') => parseForgeScriptLoop fuel p' (acc ++ [n])
      | (none, p') => parseForgeScriptLoop fuel p' acc
termination_by structural fuel => fuel

/-- `Parser::parse_forge_script`. -/
def parse_forge_script : Nat → Parser → AstNode × List ParseError
  | 0, p => (.program [] ⟨p.pos, p.source.length⟩, p.errors)
  | fuel + 1, p =>
    let res := parseForgeScriptLoop fuel p []
    (.program res.1 ⟨p.pos, p.source.length⟩, res.2.errors)
termination_by structural fuel => fuel

/-- `Parser::parse_forge_node`. -/
def parse_forge_node : Nat → Parser → Option AstNode × Parser
  | 0, p => (none, p)
  | fuel + 1, p =>
    if p.current_byte = some 92 then
      let res := parse_escape_sequence p
      (some res.1, res.2)
    else if p.current_byte = some 36 ∧ ¬ is_escaped p.source p.pos then
      if p.peek_byte 1 = some 123 then
        let res := parse_javascript p
        (some res.1, res.2)
      else
        let res := parse_function_call fuel p
        (some res.1, res.2)
    else parse_text p
termination_by structural fuel => fuel

/-- `Parser::parse_function_call`. -/
def parse_function_call : Nat → Parser → AstNode × Parser
  | 0, p => (.text [] ⟨p.pos, p.pos⟩, p)
  | fuel + 1, p =>
    let start := p.pos
    let p0 : Parser := { p with pos := p.pos + 1 }
    let modifier_start := p0.pos
    let mres := parse_modifiers fuel p0
    let modifiers0 := mres.1
    let p1 := mres.2
    let modifier_end := p1.pos
    let modifier_span :=
      if modifier_end > modifier_start then
        some (Span.mk modifier_start modifier_end)
      else none
    let name_end := identEnd p1.source p1.pos
    let name := slice p1.source p1.pos name_end
    let p2 : Parser := { p1 with pos := name_end }
    if name = [] then
      (.text [36] ⟨start, start + 1⟩, p2)
    else
      let name_span : Span := ⟨modifier_start, name_end⟩
      if is_escape_function name then
        parse_escape_function p2 start name name_span
      else
        let has_brackets := p2.current_byte = some 91
        let bracket_open := p2.pos
        let ares :=
          if has_brackets then parse_function_arguments fuel p2 else (none, p2)
        let args := ares.1
        let p3 := ares.2
        let args_span :=
          if has_brackets then some (Span.mk bracket_open p3.pos) else none
        let full_span : Span := ⟨modifier_start, p3.pos⟩
        let span : Span := ⟨start, p3.pos⟩
        let p4 :=
          if p3.config.is_enabled then
            let full_name := if name.head? = some 36 then name else 36 :: name
            match p3.metadata with
            | some metadata =>
              match MetadataManager.get metadata full_name with
              | some func =>
                validate_function_call p3 full_name func args has_brackets
                  name_span
              | none =>
                if p3.config.validate_functions then
                  p3.pushError ⟨bytes "Unknown function: " ++ full_name,
                    name_span, .UnknownFunction⟩
                else p3
            | none =>
              if p3.config.validate_functions then
                p3.pushError ⟨bytes "Cannot validate function " ++ full_name
                  ++ bytes ": no metadata available", name_span,
                  .UnknownFunction⟩
              else p3
          else p3
        (.functionCall name name_span modifier_span args_span args modifiers0
          full_span span, p4)
termination_by structural fuel => fuel

/-- `Parser::parse_modifiers`. -/
def parse_modifiers : Nat → Parser → Modifiers × Parser
  | 0, p => ({}, p)
  | fuel + 1, p =>
    let start := p.pos
    let res := parseModifiersLoop fuel p {}
    let p' := res.2
    (if p'.pos > start then { res.1 with span := some ⟨start, p'.pos⟩ }
     else res.1, p')

/-- The modifier loop of `Parser::parse_modifiers`. -/
def parseModifiersLoop : Nat → Parser → Modifiers → Modifiers × Parser
  | 0, p, m => (m, p)
  | fuel + 1, p, m =>
    match p.current_byte with
    | some 33 =>
      parseModifiersLoop fuel { p with pos := p.pos + 1 } { m with silent := true }
    | some 35 =>
      parseModifiersLoop fuel { p with pos := p.pos + 1 } { m with negated := true }
    | some 64 =>
      if p.peek_byte 1 = some 91 then
        let bracket_start := p.pos + 1
        let p1 : Parser := { p with pos := p.pos + 2 }
        match find_matching_bracket p1.source bracket_start with
        | some e =>
          parseModifiersLoop fuel { p1 with pos := e + 1 }
            { m with count := some (slice p1.source (bracket_start + 1) e) }
        | none =>
          if p1.config.validate_brackets then
            (m, p1.pushError (.syntaxError (bytes "Unclosed modifier bracket")
              ⟨bracket_start, bracket_start + 1⟩))
          else (m, p1)
      else (m, p)
    | _ => (m, p)
termination_by structural fuel => fuel

/-- `Parser::parse_function_arguments`. -/
def parse_function_arguments : Nat → Parser → Option (List Argument) × Parser
  | 0, p => (none, p)
  | fuel + 1, p =>
    let bracket_start := p.pos
    let p1 : Parser := { p with pos := p.pos + 1 }
    match find_matching_bracket p1.source bracket_start with
    | some e =>
      let args_content := slice p1.source (bracket_start + 1) e
      let res := parse_arguments fuel p1 args_content (bracket_start + 1)
      (some res.1, { res.2 with pos := e + 1 })
    | none =>
      (none,
        if p1.config.validate_brackets then
          p1.pushError (.syntaxError (bytes "Unclosed function arguments")
            ⟨bracket_start, bracket_start + 1⟩)
        else p1)
termination_by structural fuel => fuel

/-- `Parser::parse_arguments`. -/
def parse_arguments : Nat → Parser → List Nat → Nat → List Argument × Parser
  | 0, p, _, _ => ([], p)
  | fuel + 1, p, content, base_offset =>
    parseArgumentsLoop fuel p content base_offset 0 [] [] 0 0
termination_by structural fuel => fuel

/-- The `while i < bytes.len()` loop of `Parser::parse_arguments` (state:
position `i`, finished `args`, pending `current` text, bracket `depth`,
`arg_start`), plus the trailing-argument flush on exit. -/
def parseArgumentsLoop : Nat → Parser → List Nat → Nat → Nat → List Argument →
    List Nat → Nat → Nat → List Argument × Parser
  | 0, p, _, _, _, args, _, _, _ => (args, p)
  | fuel + 1, p, content, base_offset, i, args, current, depth, arg_start =>
    if i < content.length then
      if content[i]? = some 36 ∧ depth = 0
          ∧ (find_escape_function_end content i).isSome then
        let esc_end := (find_escape_function_end content i).getD 0
        parseArgumentsLoop fuel p content base_offset (esc_end + 1) args
          (current ++ slice content i (esc_end + 1)) depth arg_start
      else if content[i]? = some 92 then
        match content[i + 1]? with
        | some nxt =>
          if nxt = 96 ∨ nxt = 36 ∨ nxt = 91 ∨ nxt = 93 ∨ nxt = 59 ∨ nxt = 92 then
            parseArgumentsLoop fuel p content base_offset (i + 2) args
              (current ++ slice content i (i + 2)) depth arg_start
          else
            parseArgumentsLoop fuel p content base_offset (i + 1) args
              (current ++ [92]) depth arg_start
        | none =>
          parseArgumentsLoop fuel p content base_offset (i + 1) args
            (current ++ [92]) depth arg_start
      else if content[i]? = some 91 ∧ ¬ is_escaped content i
          ∧ is_function_bracket content i then
        parseArgumentsLoop fuel p content base_offset (i + 1) args
          (current ++ [91]) (depth + 1) arg_start
      else if content[i]? = some 93 ∧ depth > 0 ∧ ¬ is_escaped content i then
        parseArgumentsLoop fuel p content base_offset (i + 1) args
          (current ++ [93]) (depth - 1) arg_start
      else if content[i]? = some 59 ∧ depth = 0 then
        let arg_offset := base_offset + arg_start
        let pres := parse_argument_parts fuel p current arg_offset
        parseArgumentsLoop fuel pres.2 content base_offset (i + 1)
          (args ++ [.mk pres.1 ⟨arg_offset, arg_offset + current.length⟩])
          [] depth (i + 1)
      else
        parseArgumentsLoop fuel p content base_offset (i + 1) args
          (current ++ encodeChar ((content[i]?).getD 0)) depth arg_start
    else
      if !current.isEmpty || !args.isEmpty then
        let arg_offset := base_offset + arg_start
        let pres := parse_argument_parts fuel p current arg_offset
        (args ++ [.mk pres.1 ⟨arg_offset, arg_offset + current.length⟩], pres.2)
      else (args, p)
termination_by structural fuel => fuel

/-- `Parser::parse_argument_parts`. -/
def parse_argument_parts : Nat → Parser → List Nat → Nat → List AstNode × Parser
  | 0, p, content, offset =>
    if content = [] then ([.text [] ⟨offset, offset⟩], p) else ([], p)
  | fuel + 1, p, content, offset =>
    if content = [] then ([.text [] ⟨offset, offset⟩], p)
    else
      let innerP :=
        if p.config.is_enabled then
          match p.metadata with
          | some metadata => Parser.with_validation content p.config metadata
          | none => Parser.with_config content p.config
        else Parser.new content
      let res := parse_forge_script fuel innerP
      let nodes :=
        match res.1 with
        | .program body _ => offsetNodes offset body
        | other => [other]
      (nodes, { p with errors := p.errors ++ res.2.map (offsetError offset) })
termination_by structural fuel => fuel

/-- The block loop of `Parser::parse` (host-block extraction). -/
def parseLoop : Nat → Parser → List AstNode → List AstNode × Parser
  | 0, p, body => (body, p)
  | fuel + 1, p, body =>
    if p.is_eof then (body, p)
    else
      match find_code_block_start_from p.source p.pos with
      | some block_start =>
        let body1 :=
          if block_start > p.pos then
            body ++ [.text (slice p.source p.pos block_start)
              ⟨p.pos, block_start⟩]
          else body
        let content_start := block_start + 7
        let p1 : Parser := { p with pos := content_start }
        match find_code_block_end_from p1.source p1.pos with
        | some block_end =>
          if block_end - content_start > 0 then
            let inner_source := slice p1.source content_start block_end
            let innerP :=
              if p1.config.is_enabled then
                match p1.metadata with
                | some metadata =>
                  Parser.with_validation inner_source p1.config metadata
                | none => Parser.with_config inner_source p1.config
              else Parser.new inner_source
            let res := parse_forge_script fuel innerP
            let body2 :=
              match offsetNode content_start res.1 with
              | .program inner_body _ => body1 ++ inner_body
              | other => body1 ++ [other]
            let p2 := { p1 with
              errors := p1.errors ++ res.2.map (offsetError content_start),
              pos := block_end + 1 }
            parseLoop fuel p2 body2
          else
            parseLoop fuel { p1 with pos := block_end + 1 } body1
        | none =>
          let p2 :=
            if p1.config.validate_brackets then
              p1.pushError (.syntaxError (bytes "Unclosed code block")
                ⟨block_start, p1.source.length⟩)
            else p1
          let body2 := body1 ++ [.text (slice p1.source block_start
            p1.source.length) ⟨block_start, p1.source.length⟩]
          parseLoop fuel { p2 with pos := p2.source.length } body2
      | none =>
        let body2 :=
          if p.pos < p.source.length then
            body ++ [.text (slice p.source p.pos p.source.length)
              ⟨p.pos, p.source.length⟩]
          else body
        parseLoop fuel { p with pos := p.source.length } body2
termination_by structural fuel => fuel

end

/-- `Parser::parse` (the outer pass). -/
def Parser.parse (fuel : Nat) (p : Parser) : AstNode × List ParseError :=
  let start := p.pos
  let res := parseLoop fuel p []
  (.program res.1 ⟨start, p.source.length⟩, res.2.errors)

/-- Fuel that is ample for the embedding's bounded loops on a given input. -/
def defaultFuel (source : List Nat) : Nat :=
  (source.length + 2) * (source.length + 2) + 100

/-- `parser::parse` (public API, no validation). -/
def parse (source : List Nat) : AstNode × List ParseError :=
  Parser.parse (defaultFuel source) (Parser.new source)

/-- `parser::parse_with_config`. -/
def parse_with_config (source : List Nat) (config : ValidationConfig) :
    AstNode × List ParseError :=
  Parser.parse (defaultFuel source) (Parser.with_config source config)

/-- `parser::parse_with_validation`. -/
def parse_with_validation (source : List Nat) (config : ValidationConfig)
    (metadata : MetadataManager) : AstNode × List ParseError :=
  Parser.parse (defaultFuel source) (Parser.with_validation source config metadata)

end ForgeKit

namespace ForgeKit

/-- Body of a `Program` node (empty for other variants). -/
def AstNode.body : AstNode → List AstNode
  | .program b _ => b
  | _ => []

/-- Kind tag of a node, for compact statements. -/
def AstNode.kindTag : AstNode → Nat
  | .program _ _ => 0
  | .text _ _ => 1
  | .functionCall _ _ _ _ _ _ _ _ => 2
  | .javascript _ _ => 3
  | .escaped _ _ => 4

/-- Name of a `FunctionCall` node. -/
def AstNode.callName : AstNode → Option (List Nat)
  | .functionCall name _ _ _ _ _ _ _ => some name
  | _ => none

/-- `args` of a `FunctionCall` node. -/
def AstNode.callArgs : AstNode → Option (Option (List Argument))
  | .functionCall _ _ _ _ args _ _ _ => some args
  | _ => none

/-- Number of arguments of a `FunctionCall` node carrying an argument list. -/
def AstNode.callArgsLen : AstNode → Option Nat
  | .functionCall _ _ _ _ (some args) _ _ _ => some args.length
  | _ => none

/-- `args_span` of a `FunctionCall` node. -/
def AstNode.callArgsSpan : AstNode → Option (Option Span)
  | .functionCall _ _ _ asp _ _ _ _ => some asp
  | _ => none

/-- `name_span` of a `FunctionCall` node. -/
def AstNode.callNameSpan : AstNode → Option Span
  | .functionCall _ ns _ _ _ _ _ _ => some ns
  | _ => none

/-- `modifiers` of a `FunctionCall` node. -/
def AstNode.callModifiers : AstNode → Option Modifiers
  | .functionCall _ _ _ _ _ mods _ _ => some mods
  | _ => none

/-- Spans of the arguments of a `FunctionCall` node. -/
def AstNode.callArgSpans : AstNode → List Span
  | .functionCall _ _ _ _ (some args) _ _ _ => args.map Argument.span
  | _ => []

/-- Concatenated literal text of each argument of a `FunctionCall` node. -/
def AstNode.callArgTexts : AstNode → List (Option (List Nat))
  | .functionCall _ _ _ _ (some args) _ _ _ => args.map Argument.as_text
  | _ => []

/-- Span containment: `inner` lies inside `outer` (both half-open). -/
def spanContains (outer inner : Span) : Prop :=
  outer.start ≤ inner.start ∧ inner.stop ≤ outer.stop

instance (outer inner : Span) : Decidable (spanContains outer inner) := by
  unfold spanContains; infer_instance

end ForgeKit

namespace ForgeKit

/-- The C1 test input: a code block whose argument list holds a bare `[`. -/
def banSource : List Nat := bytes "code: `$ban[user; 1m; []`"

/-- C1: the claim says parsing ``code: `$ban[user; 1m; []` `` yields a
`FunctionCall` `ban` with three arguments (the third containing a literal `[`)
and an empty diagnostic list even with bracket validation on.  The code
disagrees: `find_matching_bracket` counts the bare `[` towards depth, finds no
match for the argument list, so `parse_function_arguments` returns `args =
none` and pushes one `Syntax` diagnostic ("Unclosed function arguments", at
the `[` of `$ban[`) — contradicting the spec and the repository's own tests
`test_bare_bracket_in_args_no_error` and `test_bare_brackets_no_syntax_error`. -/
theorem c1_bare_bracket_yields_unclosed_args_diagnostic :
    ((parse_with_config banSource { validate_brackets := true }).2.map
        (fun e => (e.kind, e.span)) = [(.Syntax, ⟨11, 12⟩)]) ∧
    ((parse_with_config banSource { validate_brackets := true }).1.body.map
        AstNode.callName = [some (bytes "ban"), none]) ∧
    ((parse_with_config banSource { validate_brackets := true }).1.body.map
        AstNode.callArgs = [some none, none]) ∧
    ((parse banSource).1.body.map AstNode.callArgs = [some none, none]) :=
  ⟨rfl, rfl, rfl, rfl⟩

/-- The C2 test input: a silent-modified call with an empty bracket pair. -/
def silentSource : List Nat := bytes "code: `$!silent[]`"

/-- C2 counterexample: the claim says ``code: `$!silent[]` `` produces one
argument (a single empty `Text` child); the code's `parse_arguments` on empty
content produces an empty argument list — zero arguments, not one. -/
theorem c2_empty_bracket_pair_yields_zero_arguments :
    ((parse silentSource).1.body.map AstNode.callArgsLen = [some 0]) ∧
    ¬ ((parse silentSource).1.body.map AstNode.callArgsLen = [some 1]) :=
  ⟨rfl, by decide⟩

/-- C2 (amended): ``code: `$!silent[]` `` parses to one `FunctionCall` named
`silent` with `modifiers.silent = true`, `modifiers.negated = false`, zero
diagnostics, and `args = some []` — an empty argument list with **zero**
arguments (an entirely empty bracket pair produces no argument).  The
"single empty Text child" rule holds for empty argument *slots*: for every
state and offset, `parse_argument_parts` on empty content yields exactly one
empty `Text` node spanning `[offset, offset)` and leaves the parser state
unchanged (this is the shape of empty arguments between or after `;`
separators). -/
theorem c2_silent_call_empty_args_amended :
    ((parse silentSource).1.body.map AstNode.callName = [some (bytes "silent")]) ∧
    ((parse silentSource).1.body.map
        (fun n => n.callModifiers.map (fun m => (m.silent, m.negated)))
      = [some (true, false)]) ∧
    ((parse silentSource).1.body.map AstNode.callArgs = [some (some [])]) ∧
    ((parse silentSource).2 = []) ∧
    (∀ (fuel : Nat) (p : Parser) (offset : Nat),
      parse_argument_parts fuel p [] offset
        = ([.text [] ⟨offset, offset⟩], p)) :=
  ⟨rfl, rfl, rfl, rfl, fun fuel _ _ => by cases fuel <;> rfl⟩

/-- The C3 test input: a multi-byte UTF-8 character inside an argument
(`é` = bytes 195, 169). -/
def uniSource : List Nat := bytes "code: `$f[é]`"

/-- C3: the claim says every node's span is contained in its parent's span and
`source[n.span]` is a well-formed substring, for every source including
multi-byte UTF-8 inside arguments.  The code disagrees: `parse_arguments`
rebuilds argument text with `current.push(bytes[i] as char)`, re-encoding each
byte ≥ 0x80 as two bytes, so for ``code: `$f[é]` `` the argument's span is
computed from the inflated length: the argument span `[10, 14)` escapes the
call's `args_span` `[9, 13)` (and the argument text `[195,131,194,169]` is a
mangling of the source bytes `[195,169]`).  The Program span `[0, 14)` itself
is correct. -/
theorem c3_multibyte_argument_span_escapes_args_span :
    ((parse uniSource).1.body.map AstNode.callArgsSpan = [some (some ⟨9, 13⟩)]) ∧
    ((parse uniSource).1.body.map AstNode.callArgSpans = [[⟨10, 14⟩]]) ∧
    ¬ spanContains ⟨9, 13⟩ ⟨10, 14⟩ ∧
    ((parse uniSource).1.span = ⟨0, 14⟩) ∧
    ((parse uniSource).1.body.map AstNode.callArgTexts
      = [[some [195, 131, 194, 169]]]) ∧
    (slice uniSource 10 12 = [195, 169]) :=
  ⟨rfl, rfl, by decide, rfl, rfl, rfl⟩

end ForgeKit

namespace ForgeKit

/-- `slice l i (i+1)` is the singleton of the byte at `i`. -/
theorem slice_singleton (l : List Nat) (i b : Nat) (h : l[i]? = some b) :
    slice l i (i + 1) = [b] := by
  have hi : i < l.length := by
    by_contra hn
    rw [List.getElem?_eq_none (by omega)] at h
    exact Option.noConfusion h
  have hb : l[i] = b := by
    rw [List.getElem?_eq_getElem hi] at h
    exact Option.some.inj h
  unfold slice
  have hmin : min (i + 1) l.length = i + 1 := by omega
  rw [hmin, List.drop_take]
  have h1 : i + 1 - i = 1 := by omega
  rw [h1, List.take_one_drop_eq_of_lt_length hi]
  simp [hb]

/-- C7: at a `\`, the escape subroutine emits exactly one `Text` node and no
diagnostic: `\\` gives content `\` spanning both bytes; `\` before one of
`$ [ ] ; `` ` `` gives that literal character alone, spanning both bytes;
otherwise the lone `\` is emitted spanning one byte.  The parser state is
unchanged except for the advanced cursor (in particular no error is added). -/
theorem c7_escape_subroutine_neutrality (p : Parser)
    (h : p.current_byte = some 92) :
    (p.peek_byte 1 = some 92 →
      parse_escape_sequence p
        = (.text [92] ⟨p.pos, p.pos + 2⟩, { p with pos := p.pos + 2 })) ∧
    (∀ b, p.peek_byte 1 = some b →
      b = 36 ∨ b = 91 ∨ b = 93 ∨ b = 59 ∨ b = 96 →
      parse_escape_sequence p
        = (.text [b] ⟨p.pos, p.pos + 2⟩, { p with pos := p.pos + 2 })) ∧
    ((∀ b, p.peek_byte 1 = some b →
        ¬ (b = 92 ∨ b = 36 ∨ b = 91 ∨ b = 93 ∨ b = 59 ∨ b = 96)) →
      parse_escape_sequence p
        = (.text [92] ⟨p.pos, p.pos + 1⟩, { p with pos := p.pos + 1 })) := by
  clear h
  refine ⟨?_, ?_, ?_⟩
  · intro h2
    simp only [Parser.peek_byte] at h2
    simp only [parse_escape_sequence, Parser.current_byte]
    rw [h2]
  · intro b h2 hmem
    simp only [Parser.peek_byte] at h2
    simp only [parse_escape_sequence, Parser.current_byte]
    rw [h2]
    have hb92 : b ≠ 92 := by rcases hmem with h'|h'|h'|h'|h' <;> omega
    have hs : slice p.source (p.pos + 1) (p.pos + 1 + 1) = [b] :=
      slice_singleton _ _ _ h2
    rcases hmem with rfl|rfl|rfl|rfl|rfl <;> simp [hs, Nat.add_assoc]
  · intro hno
    simp only [Parser.peek_byte] at hno
    simp only [parse_escape_sequence, Parser.current_byte]
    cases hx : p.source[p.pos + 1]? with
    | none => simp
    | some b =>
      have hb' := hno b hx
      have hb : ¬ (b = 36 ∨ b = 91 ∨ b = 93 ∨ b = 59 ∨ b = 96) := by tauto
      have hb92 : b ≠ 92 := by tauto
      simp [hb, hb92]

/-- C7 witness: the escape subroutine on the concrete input `\$x` (bytes
92, 36, 120) at position 0 drops the `\` and emits `Text "$"` over both
bytes. -/
theorem c7_escape_subroutine_neutrality_witness :
    parse_escape_sequence (Parser.new (bytes "\\$x"))
      = (.text [36] ⟨0, 2⟩, { Parser.new (bytes "\\$x") with pos := 2 }) :=
  (c7_escape_subroutine_neutrality (Parser.new (bytes "\\$x")) rfl).2.1
    36 rfl (Or.inl rfl)

/-- C9: during enum validation, an argument whose literal text trims to the
empty string never produces an `EnumValue` diagnostic — even when the schema
item is required and the enumeration lacks the empty string — and a
diagnostic is produced only when the trimmed value is non-empty and absent
from the resolved enumeration (in which case exactly one `EnumValue`
diagnostic is appended). -/
theorem c9_enum_validation_skips_blank_values (p : Parser) (fn : List Nat)
    (arg : Argument) (fa : Arg) (ns : Span) :
    (∀ t, arg.as_text = some t → trimBytes t = [] →
      validate_enum_value p fn arg fa ns = p) ∧
    (validate_enum_value p fn arg fa ns ≠ p →
      ∃ t vs, arg.as_text = some t ∧ resolveEnumValues p fa = some vs ∧
        trimBytes t ≠ [] ∧ vs.contains (trimBytes t) = false ∧
        (validate_enum_value p fn arg fa ns).errors
          = p.errors ++ [⟨bytes "Invalid value for " ++ fn ++ bytes " argument "
              ++ fa.name ++ bytes ": expected one of " ++ debugList vs, ns,
              .EnumValue⟩]) := by
  unfold validate_enum_value
  split
  · exact ⟨fun _ _ _ => rfl, fun hne => absurd rfl hne⟩
  · rename_i hreq
    constructor
    · intro t ht htrim
      cases hres : resolveEnumValues p fa with
      | none => rfl
      | some vs =>
        simp only [ht]
        rw [if_neg]
        intro ⟨h1, _⟩
        exact h1 htrim
    · intro hne
      cases hres : resolveEnumValues p fa with
      | none => rw [hres] at hne; exact absurd rfl hne
      | some vs =>
        rw [hres] at hne
        cases ht : arg.as_text with
        | none => rw [ht] at hne; exact absurd rfl hne
        | some t =>
          rw [ht] at hne
          by_cases hcond : trimBytes t ≠ [] ∧ ¬ vs.contains (trimBytes t)
          · refine ⟨t, vs, rfl, rfl, hcond.1, by simpa using hcond.2, ?_⟩
            simp only [hres, ht]
            rw [if_pos hcond]
            rfl
          · dsimp only at hne
            rw [if_neg hcond] at hne
            exact absurd rfl hne

/-- C9 witness: a required schema item with enumeration `["yes"]` and a
whitespace-only argument `"  "` produces no diagnostic. -/
theorem c9_enum_validation_skips_blank_values_witness :
    validate_enum_value (Parser.new []) (bytes "$f")
      (.mk [.text (bytes "  ") ⟨0, 2⟩] ⟨0, 2⟩)
      { name := bytes "opt", required := some true,
        arg_enum := some [bytes "yes"] } ⟨0, 1⟩
      = Parser.new [] :=
  (c9_enum_validation_skips_blank_values (Parser.new []) (bytes "$f")
      (.mk [.text (bytes "  ") ⟨0, 2⟩] ⟨0, 2⟩)
      { name := bytes "opt", required := some true,
        arg_enum := some [bytes "yes"] } ⟨0, 1⟩).1
    (bytes "  ") rfl rfl

end ForgeKit

namespace ForgeKit

@[simp] theorem pushError_errors (p : Parser) (e : ParseError) :
    (p.pushError e).errors = p.errors ++ [e] := rfl

@[simp] theorem pushError_config (p : Parser) (e : ParseError) :
    (p.pushError e).config = p.config := rfl

theorem validate_enum_value_cases (p : Parser) (fn : List Nat) (arg : Argument)
    (fa : Arg) (ns : Span) :
    validate_enum_value p fn arg fa ns = p ∨
      ∃ e, e.kind = .EnumValue ∧ validate_enum_value p fn arg fa ns = p.pushError e := by
  unfold validate_enum_value
  split
  · exact Or.inl rfl
  · split
    · split
      · dsimp only
        split
        · exact Or.inr ⟨_, rfl, rfl⟩
        · exact Or.inl rfl
      · exact Or.inl rfl
    · exact Or.inl rfl

theorem validateEnumsLoop_errors (fn : List Nat) (fas : List Arg) (hr : Bool)
    (ns : Span) :
    ∀ (args : List Argument) (p : Parser) (i : Nat),
      ∃ new, (validateEnumsLoop fn fas hr ns p args i).errors = p.errors ++ new
        ∧ ∀ e ∈ new, e.kind = .EnumValue := by
  intro args
  induction args with
  | nil => intro p i; exact ⟨[], by simp [validateEnumsLoop]⟩
  | cons a rest ih =>
    intro p i
    unfold validateEnumsLoop
    have step :
        ∃ p', (match fas[i]? with
          | some fa => validate_enum_value p fn a fa ns
          | none =>
            if hr = true then
              match fas.getLast? with
              | some fa => validate_enum_value p fn a fa ns
              | none => p
            else p) = p'
          ∧ ∃ new0, p'.errors = p.errors ++ new0 ∧ ∀ e ∈ new0, e.kind = .EnumValue := by
      split
      · rcases validate_enum_value_cases p fn a _ ns with h | ⟨e, hk, h⟩
        · exact ⟨p, h, [], by simp⟩
        · exact ⟨_, h, [e], by simp [hk]⟩
      · split
        · split
          · rcases validate_enum_value_cases p fn a _ ns with h | ⟨e, hk, h⟩
            · exact ⟨p, h, [], by simp⟩
            · exact ⟨_, h, [e], by simp [hk]⟩
          · exact ⟨p, rfl, [], by simp⟩
        · exact ⟨p, rfl, [], by simp⟩
    rcases step with ⟨p', hp', new0, hnew0, hk0⟩
    rw [hp']
    rcases ih p' (i + 1) with ⟨new1, hnew1, hk1⟩
    refine ⟨new0 ++ new1, ?_, ?_⟩
    · rw [hnew1, hnew0, List.append_assoc]
    · intro e he
      rcases List.mem_append.mp he with h | h
      · exact hk0 e h
      · exact hk1 e h

theorem validate_arguments_errors (p : Parser) (fn : List Nat)
    (pargs : List Argument) (fas : List Arg) (ns : Span) :
    ∃ new, (validate_arguments p fn pargs fas ns).errors = p.errors ++ new
      ∧ ∀ e ∈ new, e.kind = .ArgumentCount ∨ e.kind = .EnumValue := by
  have finish : ∀ (p1 : Parser) (new0 : List ParseError),
      p1.errors = p.errors ++ new0 → p1.config = p.config →
      (∀ e ∈ new0, e.kind = .ArgumentCount) →
      ∃ new, (if p1.config.validate_enums = true then
          validateEnumsLoop fn fas (fas.any fun a => a.rest) ns p1 pargs 0
        else p1).errors = p.errors ++ new
        ∧ ∀ e ∈ new, e.kind = .ArgumentCount ∨ e.kind = .EnumValue := by
    intro p1 new0 hnew0 hcfg hk0
    split
    · rcases validateEnumsLoop_errors fn fas (fas.any fun a => a.rest) ns pargs p1 0 with
        ⟨new1, hnew1, hk1⟩
      refine ⟨new0 ++ new1, ?_, ?_⟩
      · rw [hnew1, hnew0, List.append_assoc]
      · intro e he
        rcases List.mem_append.mp he with h | h
        · exact Or.inl (hk0 e h)
        · exact Or.inr (hk1 e h)
    · exact ⟨new0, hnew0, fun e he => Or.inl (hk0 e he)⟩
  unfold validate_arguments
  dsimp only
  split
  · split
    · exact finish _ [_] rfl rfl (by simp)
    · split
      · exact finish _ [_] rfl rfl (by simp)
      · exact finish p [] (by simp) rfl (by simp)
  · exact finish p [] (by simp) rfl (by simp)

end ForgeKit
namespace ForgeKit

/-- The C8 signature: bracket policy *required*, one alias `foo`. -/
def fooRequiredSig : Function :=
  { name := bytes "$adminban", brackets := some true, aliases := some [bytes "foo"] }

/-- The C8 registry: `fooRequiredSig` ingested via `add_functions`. -/
def c8Registry : MetadataManager :=
  MetadataManager.add_functions MetadataManager.new [fooRequiredSig]

/-- The C8 parse input: a bare call through the alias. -/
def fooSource : List Nat := bytes "code: `$foo`"

/-- C8: with bracket validation enabled, `validate_function_call` emits a
`BracketUsage` diagnostic if and only if the signature's policy is required
(`brackets = Some(true)`) and no brackets were supplied, or forbidden
(`brackets = None`) and brackets were supplied; the optional policy
(`brackets = Some(false)`) never emits one; the diagnostic's span is the
call's name span, and no other `BracketUsage` diagnostic is added by the
remaining validation.  Concretely, ingesting a signature with `brackets =
required` and alias `foo`, then parsing ``code: `$foo` `` with function and
bracket validation, yields exactly one `BracketUsage` diagnostic on the name
span `[8, 11)`. -/
theorem c8_bracket_policy_iff_and_alias_scenario (p : Parser) (name : List Nat) (func : Function)
    (args : Option (List Argument)) (hb : Bool) (ns : Span)
    (hvb : p.config.validate_brackets = true) :
    (∃ rest, (validate_function_call p name func args hb ns).errors
        = p.errors
          ++ (match func.brackets, hb with
              | some true, false =>
                [⟨name ++ bytes " requires brackets", ns, .BracketUsage⟩]
              | none, true =>
                [⟨name ++ bytes " does not accept brackets", ns, .BracketUsage⟩]
              | _, _ => [])
          ++ rest
      ∧ ∀ e ∈ rest, e.kind ≠ .BracketUsage) ∧
    ((parse_with_validation fooSource
        { validate_functions := true, validate_brackets := true } c8Registry).2.map
          (fun e => (e.kind, e.span)) = [(.BracketUsage, ⟨8, 11⟩)] ∧
      (parse_with_validation fooSource
        { validate_functions := true, validate_brackets := true } c8Registry).1.body.map
          AstNode.callNameSpan = [some ⟨8, 11⟩]) := by
  constructor
  · have main : ∀ (p1 : Parser) (brNew : List ParseError),
        p1.errors = p.errors ++ brNew → p1.config = p.config →
        ∃ rest, (if (p1.config.validate_arguments || p1.config.validate_enums) = true ∧ hb = true then
            match args, func.args with
            | some provided, some func_args => validate_arguments p1 name provided func_args ns
            | _, _ => p1
          else p1).errors = p.errors ++ brNew ++ rest
          ∧ ∀ e ∈ rest, e.kind ≠ .BracketUsage := by
      intro p1 brNew hbr hcfg
      split
      · split
        · rcases validate_arguments_errors p1 name _ _ ns with ⟨new, hnew, hk⟩
          refine ⟨new, ?_, ?_⟩
          · rw [hnew, hbr, List.append_assoc]
          · intro e he
            rcases hk e he with h | h <;> simp [h]
        · exact ⟨[], by simp [hbr], by simp⟩
      · exact ⟨[], by simp [hbr], by simp⟩
    unfold validate_function_call
    dsimp only
    rw [if_pos hvb]
    rcases func.brackets with _ | b
    · cases hb
      · exact main _ [] (by simp) (by simp)
      · exact main _ [⟨name ++ bytes " does not accept brackets", ns,
          .BracketUsage⟩] (by simp) (by simp)
    · cases b
      · exact main _ [] (by simp) (by simp)
      · cases hb
        · exact main _ [⟨name ++ bytes " requires brackets", ns,
            .BracketUsage⟩] (by simp) (by simp)
        · exact main _ [] (by simp) (by simp)
  · exact ⟨rfl, rfl⟩

/-- C8 witness: the theorem applied at a concrete state (empty source,
bracket validation on, a bracket-required signature, no brackets), projecting
the concrete alias scenario. -/
theorem c8_bracket_policy_witness :
    (parse_with_validation fooSource
        { validate_functions := true, validate_brackets := true } c8Registry).2.map
          (fun e => (e.kind, e.span)) = [(.BracketUsage, ⟨8, 11⟩)] :=
  (c8_bracket_policy_iff_and_alias_scenario
      (Parser.with_config [] { validate_brackets := true }) []
      { name := bytes "$x", brackets := some true } none false ⟨0, 0⟩ rfl).2.1

end ForgeKit

namespace ForgeKit
namespace TrieNode

@[simp] theorem getChild_updateChild_self (ch : List (Nat × TrieNode)) (c : Nat)
    (t : TrieNode) : getChild (updateChild ch c t) c = some t := by
  induction ch with
  | nil => simp [updateChild, getChild]
  | cons hd rest ih =>
    obtain ⟨c0, t0⟩ := hd
    by_cases h : c0 = c
    · subst h; simp [updateChild, getChild]
    · simp [updateChild, getChild, h, ih]

theorem getChild_updateChild_ne (ch : List (Nat × TrieNode)) (c c' : Nat)
    (t : TrieNode) (h : c' ≠ c) :
    getChild (updateChild ch c t) c' = getChild ch c' := by
  induction ch with
  | nil =>
    have h' : ¬ c = c' := fun hc => h hc.symm
    simp [updateChild, getChild, h']
  | cons hd rest ih =>
    obtain ⟨c0, t0⟩ := hd
    by_cases h0 : c0 = c
    · subst h0
      simp only [updateChild, if_pos rfl, getChild]
      rw [if_neg (fun hc => h hc.symm), if_neg (fun hc => h hc.symm)]
    · simp only [updateChild, if_neg h0, getChild]
      by_cases h1 : c0 = c'
      · simp [h1]
      · simp [h1, ih]

@[simp] theorem lookupNode_empty (ks : List Nat) : lookupNode empty ks = none := by
  cases ks <;> simp [lookupNode, empty, getChild]

theorem lookupNode_insertNode (ks : List Nat) :
    ∀ (n : TrieNode) (ks' : List Nat) (f : Function),
      lookupNode (insertNode n ks f).1 ks'
        = if ks' = ks then some f else lookupNode n ks' := by
  induction ks with
  | nil =>
    intro n ks' f
    obtain ⟨ch, v⟩ := n
    cases ks' with
    | nil => simp [insertNode, lookupNode]
    | cons c' rest' => simp [insertNode, lookupNode]
  | cons c rest ih =>
    intro n ks' f
    obtain ⟨ch, v⟩ := n
    cases ks' with
    | nil => simp [insertNode, lookupNode]
    | cons c' rest' =>
      by_cases hc : c' = c
      · subst hc
        simp only [insertNode, lookupNode, getChild_updateChild_self]
        rw [ih]
        by_cases hr : rest' = rest
        · subst hr; simp
        · rw [if_neg hr, if_neg (by simp [hr])]
          cases hg : getChild ch c' with
          | some t => simp [lookupNode, hg]
          | none => simp [lookupNode, hg]
      · simp only [insertNode, lookupNode,
          getChild_updateChild_ne ch c c' _ hc]
        rw [if_neg (by intro hx; exact hc (List.cons.injEq .. |>.mp hx).1)]

theorem insertNode_isNew (ks : List Nat) :
    ∀ (n : TrieNode) (f : Function),
      (insertNode n ks f).2 = (lookupNode n ks).isNone := by
  induction ks with
  | nil => intro n f; obtain ⟨ch, v⟩ := n; simp [insertNode, lookupNode]
  | cons c rest ih =>
    intro n f
    obtain ⟨ch, v⟩ := n
    simp only [insertNode, lookupNode]
    rw [ih]
    cases hg : getChild ch c with
    | some t => simp [hg]
    | none => simp [hg]

end TrieNode

/-- Lookup after insert: the inserted key (up to lowercasing) answers the new
record, every other key is unchanged. -/
theorem get_exact_insert (t : FunctionTrie) (k k' : List Nat) (f : Function) :
    FunctionTrie.get_exact (FunctionTrie.insert t k f) k'
      = if toLower k' = toLower k then some f
        else FunctionTrie.get_exact t k' := by
  unfold FunctionTrie.get_exact FunctionTrie.insert
  exact TrieNode.lookupNode_insertNode (toLower k) t.root (toLower k') f

/-- The count grows only when the (lowercased) key was absent. -/
theorem len_insert (t : FunctionTrie) (k : List Nat) (f : Function) :
    FunctionTrie.len (FunctionTrie.insert t k f)
      = FunctionTrie.len t
        + (if (FunctionTrie.get_exact t k).isSome then 0 else 1) := by
  unfold FunctionTrie.len FunctionTrie.insert FunctionTrie.get_exact
  dsimp only
  rw [TrieNode.insertNode_isNew]
  cases h : TrieNode.lookupNode t.root (toLower k) <;> simp [h]

end ForgeKit

namespace ForgeKit

/-- C10: trie insertion is last-write-wins — inserting `f1` under `k1` and
then `f2` under `k2` with equal lowercased keys leaves `get_exact` (queried
with any equal-modulo-case key) returning `f2` and leaves `len()` unchanged
relative to the single insertion; in general one insertion grows `len()` only
when the lowercased key was absent (len counts distinct lowercased keys, not
insertions). -/
theorem c10_trie_insert_last_write_wins (t : FunctionTrie)
    (k1 k2 q : List Nat) (f1 f2 : Function)
    (hk : toLower k1 = toLower k2) (hq : toLower q = toLower k1) :
    FunctionTrie.get_exact
        (FunctionTrie.insert (FunctionTrie.insert t k1 f1) k2 f2) q = some f2 ∧
    FunctionTrie.len (FunctionTrie.insert (FunctionTrie.insert t k1 f1) k2 f2)
      = FunctionTrie.len (FunctionTrie.insert t k1 f1) ∧
    FunctionTrie.len (FunctionTrie.insert t k1 f1)
      = FunctionTrie.len t
        + (if (FunctionTrie.get_exact t k1).isSome then 0 else 1) := by
  refine ⟨?_, ?_, len_insert t k1 f1⟩
  · rw [get_exact_insert, if_pos (hq.trans hk)]
  · rw [len_insert, get_exact_insert, if_pos hk.symm]
    simp

/-- First C10 witness record. -/
def getOneSig : Function := { name := bytes "$Get", description := bytes "one" }

/-- Second C10 witness record (same key as the first after lowercasing). -/
def getTwoSig : Function := { name := bytes "$GET", description := bytes "two" }

/-- C10 witness: inserting under `$Get` then `$GET` leaves `$get` answering
the second record and the count at one. -/
theorem c10_trie_insert_last_write_wins_witness :
    FunctionTrie.get_exact
        (FunctionTrie.insert (FunctionTrie.insert FunctionTrie.new
          (bytes "$Get") getOneSig) (bytes "$GET") getTwoSig)
        (bytes "$get") = some getTwoSig ∧
    FunctionTrie.len (FunctionTrie.insert (FunctionTrie.insert FunctionTrie.new
        (bytes "$Get") getOneSig) (bytes "$GET") getTwoSig)
      = FunctionTrie.len (FunctionTrie.insert FunctionTrie.new (bytes "$Get") getOneSig) ∧
    FunctionTrie.len (FunctionTrie.insert FunctionTrie.new (bytes "$Get") getOneSig)
      = FunctionTrie.len FunctionTrie.new
        + (if (FunctionTrie.get_exact FunctionTrie.new (bytes "$Get")).isSome
           then 0 else 1) :=
  c10_trie_insert_last_write_wins FunctionTrie.new (bytes "$Get") (bytes "$GET")
    (bytes "$get") getOneSig getTwoSig rfl rfl

end ForgeKit
namespace ForgeKit

/-- Alias-fold lemma: keys distinct from every alias key are untouched. -/
theorem fold_alias_untouched (s : Function) (q : List Nat) :
    ∀ (al : List (List Nat)) (t : FunctionTrie),
      (∀ a ∈ al, toLower (canonicalize a) ≠ toLower q) →
      FunctionTrie.get_exact
        (al.foldl (fun acc a =>
          acc.insert (canonicalize a) { s with name := canonicalize a }) t) q
        = FunctionTrie.get_exact t q := by
  intro al
  induction al with
  | nil => intro t _; rfl
  | cons x rest ih =>
    intro t hne
    simp only [List.foldl_cons]
    rw [ih _ (fun a ha => hne a (List.mem_cons_of_mem _ ha))]
    rw [get_exact_insert, if_neg]
    intro h
    exact hne x (List.mem_cons_self _ _) (by rw [h])

/-- Alias-fold lemma: with pairwise-distinct alias keys, each alias key
answers its own derived record. -/
theorem fold_alias_mem (s : Function) :
    ∀ (al : List (List Nat)) (t : FunctionTrie) (a : List Nat),
      a ∈ al →
      al.Pairwise (fun a b => toLower (canonicalize a) ≠ toLower (canonicalize b)) →
      FunctionTrie.get_exact
        (al.foldl (fun acc a =>
          acc.insert (canonicalize a) { s with name := canonicalize a }) t)
        (canonicalize a)
        = some { s with name := canonicalize a } := by
  intro al
  induction al with
  | nil => intro t a ha _; cases ha
  | cons x rest ih =>
    intro t a ha hp
    simp only [List.foldl_cons]
    rcases List.mem_cons.mp ha with rfl | hmem
    · rw [fold_alias_untouched s (canonicalize a) rest _
        (fun b hb => ((List.pairwise_cons.mp hp).1 b hb).symm)]
      rw [get_exact_insert, if_pos rfl]
    · exact ih _ a hmem (List.pairwise_cons.mp hp).2

/-- Alias-fold lemma: the fold never removes an existing binding. -/
theorem fold_alias_isSome (s : Function) (q : List Nat) :
    ∀ (al : List (List Nat)) (t : FunctionTrie),
      (FunctionTrie.get_exact t q).isSome →
      (FunctionTrie.get_exact
        (al.foldl (fun acc a =>
          acc.insert (canonicalize a) { s with name := canonicalize a }) t) q).isSome := by
  intro al
  induction al with
  | nil => intro t h; exact h
  | cons x rest ih =>
    intro t h
    simp only [List.foldl_cons]
    apply ih
    rw [get_exact_insert]
    split
    · rfl
    · exact h

/-- C4 (amended): `add_functions` registers the canonical name **as-is**
(only the custom-functions JSON path prefixes `$`), so the claim holds for
batch ingestion when the name already starts with `$`: after ingesting a
single signature `s` whose name starts with `$` and whose aliases have
pairwise-distinct canonicalized lowercased keys, `get_exact` at the
canonicalized name returns a record, and each alias `a` answers a record
equal to `s` except that its `name` is `canonicalize a`. -/
theorem c4_alias_registration_amended (s : Function) (aliases : List (List Nat))
    (hname : s.name.head? = some 36)
    (hal : s.aliases = some aliases)
    (hdist : aliases.Pairwise
      (fun a b => toLower (canonicalize a) ≠ toLower (canonicalize b))) :
    ((MetadataManager.get_exact (MetadataManager.add_functions MetadataManager.new [s])
        (canonicalize s.name)).isSome) ∧
    ∀ a ∈ aliases,
      MetadataManager.get_exact (MetadataManager.add_functions MetadataManager.new [s])
          (canonicalize a)
        = some { s with name := canonicalize a } := by
  obtain ⟨nm, ver, desc, br, uw, ar, out, cat, als, exp, exm, dep, ext, su, lp, ln, extr⟩ := s
  dsimp only at hname hal ⊢
  subst hal
  have hcanon : canonicalize nm = nm := by
    unfold canonicalize
    rw [hname, if_pos rfl]
  rw [hcanon]
  have hm : MetadataManager.get_exact
        (MetadataManager.add_functions MetadataManager.new
          [⟨nm, ver, desc, br, uw, ar, out, cat, some aliases, exp, exm, dep, ext, su, lp, ln, extr⟩])
      = fun q => FunctionTrie.get_exact
          (aliases.foldl (fun acc a => acc.insert (canonicalize a)
            ⟨canonicalize a, ver, desc, br, uw, ar, out, cat, some aliases, exp, exm, dep, ext, su, lp, ln, extr⟩)
            (FunctionTrie.insert FunctionTrie.new nm
              ⟨nm, ver, desc, br, uw, ar, out, cat, some aliases, exp, exm, dep, ext, su, lp, ln, extr⟩)) q := by
    rfl
  rw [hm]
  constructor
  · apply fold_alias_isSome
      ⟨nm, ver, desc, br, uw, ar, out, cat, some aliases, exp, exm, dep, ext, su, lp, ln, extr⟩
    rw [get_exact_insert, if_pos rfl]
    rfl
  · intro a ha
    exact fold_alias_mem
      ⟨nm, ver, desc, br, uw, ar, out, cat, some aliases, exp, exm, dep, ext, su, lp, ln, extr⟩
      aliases _ a ha hdist

/-- C4 counterexample: a batch-ingested signature whose name lacks the `$`
prefix is *not* retrievable under its canonicalized name (the claim says it
is); it is only retrievable under the raw name. -/
theorem c4_unprefixed_batch_name_counterexample :
    (MetadataManager.get_exact
        (MetadataManager.add_functions MetadataManager.new [{ name := bytes "foo" }])
        (canonicalize (bytes "foo")) = none) ∧
    (MetadataManager.get_exact
        (MetadataManager.add_functions MetadataManager.new [{ name := bytes "foo" }])
        (bytes "foo") = some { name := bytes "foo" }) :=
  ⟨rfl, rfl⟩

/-- C4 witness record: canonical `$bar`, alias `bz`. -/
def barAliasSig : Function :=
  { name := bytes "$bar", description := bytes "y", aliases := some [bytes "bz"] }

/-- C4 witness: the amended theorem at a concrete signature. -/
theorem c4_alias_registration_amended_witness :
    ((MetadataManager.get_exact
        (MetadataManager.add_functions MetadataManager.new [barAliasSig])
        (canonicalize barAliasSig.name)).isSome) ∧
    ∀ a ∈ [bytes "bz"],
      MetadataManager.get_exact
          (MetadataManager.add_functions MetadataManager.new [barAliasSig])
          (canonicalize a)
        = some { barAliasSig with name := canonicalize a } :=
  c4_alias_registration_amended barAliasSig [bytes "bz"] rfl rfl (by simp)

end ForgeKit
namespace ForgeKit
namespace TrieNode

/-- Terminal lookup factors through the navigation walk. -/
theorem lookupNode_via_navigate (ks : List Nat) :
    ∀ (t : TrieNode), lookupNode t ks
      = match navigate t ks with
        | some n => n.value
        | none => none := by
  induction ks with
  | nil => intro t; obtain ⟨ch, v⟩ := t; rfl
  | cons c rest ih =>
    intro t
    obtain ⟨ch, v⟩ := t
    simp only [lookupNode, navigate]
    cases hg : getChild ch c with
    | some n => exact ih n
    | none => rfl

/-- Navigation splits over key concatenation. -/
theorem navigate_append (a b : List Nat) :
    ∀ (t : TrieNode), navigate t (a ++ b)
      = match navigate t a with
        | some n => navigate n b
        | none => none := by
  induction a with
  | nil => intro t; obtain ⟨ch, v⟩ := t; rfl
  | cons c rest ih =>
    intro t
    obtain ⟨ch, v⟩ := t
    simp only [List.cons_append, navigate]
    cases hg : getChild ch c with
    | some n => exact ih n
    | none => rfl

end TrieNode

/-- A prefix of `m ++ [c]` is a prefix of `m` or the whole list. -/
theorem prefix_snoc_cases {k m : List Nat} {c : Nat} (h : k <+: m ++ [c]) :
    k <+: m ∨ k = m ++ [c] := by
  by_cases hlen : k.length ≤ m.length
  · exact Or.inl (List.prefix_of_prefix_length_le h (List.prefix_append m [c]) hlen)
  · right
    apply List.IsPrefix.eq_of_length h
    have := h.length_le
    simp at this ⊢
    omega

/-- Invariant of the `get_prefix` walk: given that `matched` navigates from
`root` to `node` and `last` records the longest nonempty registered prefix of
`matched` (or witnesses that there is none), `prefixWalk` returns the longest
nonempty registered key among the prefixes of `matched ++ cs`, and `none`
exactly when no nonempty registered key is such a prefix. -/
theorem prefixWalk_spec (root : TrieNode) :
    ∀ (cs : List Nat) (node : TrieNode) (matched : List Nat)
      (last : Option (List Nat × Function)),
      TrieNode.navigate root matched = some node →
      (∀ k f, last = some (k, f) →
        k ≠ [] ∧ k <+: matched ∧ TrieNode.lookupNode root k = some f ∧
        ∀ k', k' ≠ [] → k' <+: matched →
          (TrieNode.lookupNode root k').isSome → k'.length ≤ k.length) →
      (last = none →
        ∀ k', k' ≠ [] → k' <+: matched → TrieNode.lookupNode root k' = none) →
      (∀ k f, FunctionTrie.prefixWalk node cs matched last = some (k, f) →
        k ≠ [] ∧ k <+: matched ++ cs ∧ TrieNode.lookupNode root k = some f ∧
        ∀ k', k' ≠ [] → k' <+: matched ++ cs →
          (TrieNode.lookupNode root k').isSome → k'.length ≤ k.length) ∧
      (FunctionTrie.prefixWalk node cs matched last = none →
        ∀ k', k' ≠ [] → k' <+: matched ++ cs →
          TrieNode.lookupNode root k' = none) := by
  intro cs
  induction cs with
  | nil =>
    intro node matched last hnav hsome hnone
    simp only [FunctionTrie.prefixWalk, List.append_nil]
    exact ⟨hsome, hnone⟩
  | cons c cs ih =>
    intro node matched last hnav hsome hnone
    cases hg : TrieNode.getChild node.children c with
    | none =>
      have hdead : ∀ k', k' <+: matched ++ c :: cs → matched.length < k'.length →
          TrieNode.lookupNode root k' = none := by
        intro k' hk' hlen
        have hmc_pre : matched ++ [c] <+: matched ++ c :: cs :=
          ⟨cs, by simp⟩
        have hmc : matched ++ [c] <+: k' :=
          List.prefix_of_prefix_length_le hmc_pre hk' (by simp; omega)
        rcases hmc with ⟨rest, hrest⟩
        have hnavmc : TrieNode.navigate root (matched ++ [c]) = none := by
          rw [TrieNode.navigate_append, hnav]
          obtain ⟨ch, v⟩ := node
          simp only [TrieNode.children] at hg
          simp only [TrieNode.navigate, hg]
        rw [← hrest, TrieNode.lookupNode_via_navigate,
          TrieNode.navigate_append, hnavmc]
      have hred : FunctionTrie.prefixWalk node (c :: cs) matched last = last := by
        obtain ⟨ch, v⟩ := node
        simp only [TrieNode.children] at hg
        simp only [FunctionTrie.prefixWalk, TrieNode.children, hg]
      rw [hred]
      constructor
      · intro k f hres
        rcases hsome k f hres with ⟨hne, hk, hlf, hmax⟩
        refine ⟨hne, hk.trans (List.prefix_append _ _), hlf, ?_⟩
        intro k' hk'ne hk' hsome'
        by_cases hlen : k'.length ≤ matched.length
        · exact hmax k' hk'ne
            (List.prefix_of_prefix_length_le hk' (List.prefix_append _ _) hlen)
            hsome'
        · exfalso
          rw [hdead k' hk' (by omega)] at hsome'
          exact Bool.noConfusion hsome'
      · intro hres k' hk'ne hk'
        by_cases hlen : k'.length ≤ matched.length
        · exact hnone hres k' hk'ne
            (List.prefix_of_prefix_length_le hk' (List.prefix_append _ _) hlen)
        · exact hdead k' hk' (by omega)
    | some next =>
      have hnav' : TrieNode.navigate root (matched ++ [c]) = some next := by
        rw [TrieNode.navigate_append, hnav]
        obtain ⟨ch, v⟩ := node
        simp only [TrieNode.children] at hg
        simp only [TrieNode.navigate, hg]
      have hlookup' : TrieNode.lookupNode root (matched ++ [c]) = next.value := by
        rw [TrieNode.lookupNode_via_navigate, hnav']
      have hred : FunctionTrie.prefixWalk node (c :: cs) matched last
          = FunctionTrie.prefixWalk next cs (matched ++ [c])
              (match next.value with
               | some f => some (matched ++ [c], f)
               | none => last) := by
        obtain ⟨ch, v⟩ := node
        simp only [TrieNode.children] at hg
        simp only [FunctionTrie.prefixWalk, TrieNode.children, hg]
      rw [hred, show matched ++ c :: cs = (matched ++ [c]) ++ cs by simp]
      cases hval : next.value with
      | some fv =>
        apply ih next (matched ++ [c]) (some (matched ++ [c], fv)) hnav'
        · intro k f hkf
          rw [Option.some.injEq, Prod.mk.injEq] at hkf
          obtain ⟨rfl, rfl⟩ := hkf
          refine ⟨by simp, List.prefix_rfl, by rw [hlookup', hval], ?_⟩
          intro k' _ hk' _
          exact hk'.length_le
        · intro h0
          exact Option.noConfusion h0
      | none =>
        apply ih next (matched ++ [c]) last hnav'
        · intro k f hkf
          rcases hsome k f hkf with ⟨hne, hk, hlf, hmax⟩
          refine ⟨hne, hk.trans (List.prefix_append _ _), hlf, ?_⟩
          intro k' hk'ne hk' hsome'
          rcases prefix_snoc_cases hk' with hk'm | rfl
          · exact hmax k' hk'ne hk'm hsome'
          · exfalso
            rw [hlookup', hval] at hsome'
            exact Bool.noConfusion hsome'
        · intro h0 k' hk'ne hk'
          rcases prefix_snoc_cases hk' with hk'm | rfl
          · exact hnone h0 k' hk'ne hk'm
          · rw [hlookup', hval]

end ForgeKit
namespace ForgeKit

/-- Navigating an empty key stays at the start node. -/
theorem TrieNode.navigate_nil (t : TrieNode) :
    TrieNode.navigate t [] = some t := by
  obtain ⟨ch, v⟩ := t; rfl

/-- The shorter C6 fixture record, registered at `$foo`. -/
def c6FooSig : Function := { name := bytes "$foo", description := bytes "short" }

/-- The longer C6 fixture record, registered at `$foobar`. -/
def c6FoobarSig : Function :=
  { name := bytes "$foobar", description := bytes "long" }

/-- A trie holding both `$foo` and `$foobar`. -/
def c6Trie : FunctionTrie :=
  FunctionTrie.insert
    (FunctionTrie.insert FunctionTrie.new (bytes "$foo") c6FooSig)
    (bytes "$foobar") c6FoobarSig

/-- A record registered under the empty key: `insert` accepts it and stores it
on the root node, yet `prefixWalk` starts with `last = none` and only records
a match after consuming at least one character. -/
def c6EmptyKeySig : Function := { name := [] }

/-- The trie whose only registered key is the empty string. -/
def c6EmptyKeyTrie : FunctionTrie :=
  FunctionTrie.insert FunctionTrie.new [] c6EmptyKeySig

/-- C6 counterexample: in the trie whose only registered key is the empty
string, that key is a registered prefix of the lowercased query "x", yet
`get_prefix` returns `none` - the walk starts with no recorded match and only
records one after consuming a character, so the root's own signature is never
returned, contradicting the claim's general sentence. -/
theorem c6_empty_key_counterexample :
    TrieNode.lookupNode c6EmptyKeyTrie.root [] = some c6EmptyKeySig ∧
    [] <+: toLower (bytes "x") ∧
    FunctionTrie.get_prefix c6EmptyKeyTrie (bytes "x") = none :=
  ⟨rfl, ⟨toLower (bytes "x"), rfl⟩, rfl⟩

/-- C6 (amended): `get_prefix text` returns the signature at the longest
NONEMPTY registered key that is a prefix of the lowercased text (soundness
and maximality of every `some` answer), and returns nothing exactly when no
nonempty registered key is such a prefix; concretely, with both `$foo` and
`$foobar` registered, `get_prefix "$foobarX"` answers `$foobar` and
`get_prefix "$fooX"` answers `$foo`. -/
theorem c6_get_prefix_longest_nonempty_registered_prefix
    (t : FunctionTrie) (text : List Nat) :
    (∀ k f, FunctionTrie.get_prefix t text = some (k, f) →
      k ≠ [] ∧ k <+: toLower text ∧ TrieNode.lookupNode t.root k = some f ∧
      ∀ k', k' ≠ [] → k' <+: toLower text →
        (TrieNode.lookupNode t.root k').isSome → k'.length ≤ k.length) ∧
    (FunctionTrie.get_prefix t text = none ↔
      ∀ k', k' ≠ [] → k' <+: toLower text →
        TrieNode.lookupNode t.root k' = none) ∧
    FunctionTrie.get_prefix c6Trie (bytes "$foobarX")
      = some (bytes "$foobar", c6FoobarSig) ∧
    FunctionTrie.get_prefix c6Trie (bytes "$fooX")
      = some (bytes "$foo", c6FooSig) := by
  have main := prefixWalk_spec t.root (toLower text) t.root [] none (TrieNode.navigate_nil _)
    (fun k f h => Option.noConfusion h)
    (fun _ k' hne hk' => (hne (List.prefix_nil.mp hk')).elim)
  refine ⟨?_, ⟨?_, ?_⟩, rfl, rfl⟩
  · intro k f h
    have h1 := main.1 k f h
    simpa using h1
  · intro h0 k' hne hk'
    have h2 := main.2 h0 k' hne
    simp only [List.nil_append] at h2
    exact h2 hk'
  · intro hall
    cases hres : FunctionTrie.get_prefix t text with
    | none => rfl
    | some p =>
      obtain ⟨k, f⟩ := p
      have h1 := main.1 k f hres
      simp only [List.nil_append] at h1
      rw [hall k h1.1 h1.2.1] at h1
      exact Option.noConfusion h1.2.2.1

end ForgeKit
namespace ForgeKit

mutual

/-- DFS of the stored records with paths relative to the node, in child
insertion order - the order `FunctionTrie.collect_all` visits them. -/
def dfsRel : TrieNode → List (List Nat × Function)
  | .mk ch v =>
    (match v with | some f => [([], f)] | none => []) ++ dfsRelCh ch

/-- The child loop of `dfsRel`. -/
def dfsRelCh : List (Nat × TrieNode) → List (List Nat × Function)
  | [] => []
  | (c, t) :: rest =>
    (dfsRel t).map (fun pr => (c :: pr.1, pr.2)) ++ dfsRelCh rest

end

mutual

/-- `collect_all` lists exactly the records of the relative DFS, in order. -/
theorem collect_eq_dfsRel (t : TrieNode) :
    FunctionTrie.collect_all t = (dfsRel t).map Prod.snd := by
  obtain ⟨ch, v⟩ := t
  simp only [FunctionTrie.collect_all, dfsRel, List.map_append]
  cases v with
  | some f => simp [collectCh_eq_dfsRelCh ch]
  | none => simp [collectCh_eq_dfsRelCh ch]

/-- The child-loop version of `collect_eq_dfsRel`. -/
theorem collectCh_eq_dfsRelCh (ch : List (Nat × TrieNode)) :
    FunctionTrie.collectChildren ch = (dfsRelCh ch).map Prod.snd := by
  cases ch with
  | nil => rfl
  | cons hd rest =>
    obtain ⟨c, t⟩ := hd
    simp only [FunctionTrie.collectChildren, dfsRelCh, List.map_append, List.map_map]
    rw [collect_eq_dfsRel t, collectCh_eq_dfsRelCh rest]
    rfl

end

end ForgeKit
namespace ForgeKit

/-- A record that triggers no alias registration in `add_functions`. -/
def aliasFree (f : Function) : Prop :=
  f.aliases = none ∨ f.aliases = some []

mutual

/-- The shape invariant that `FunctionTrie.insert` maintains, relative to the
absolute path `p` of the node: every stored record sits at the lowercase of
its own `name`, is alias-free, child keys are duplicate-free, and every child
subtree holds at least one record. -/
def goodNode : List Nat → TrieNode → Prop
  | p, .mk ch v =>
    (∀ f, v = some f → toLower f.name = p ∧ aliasFree f) ∧ goodChildren p ch

/-- The child part of `goodNode`. -/
def goodChildren : List Nat → List (Nat × TrieNode) → Prop
  | _, [] => True
  | p, (c, t) :: rest =>
    TrieNode.getChild rest c = none ∧ FunctionTrie.collect_all t ≠ [] ∧
    goodNode (p ++ [c]) t ∧ goodChildren p rest

end

/-- The empty node satisfies the invariant at every path. -/
theorem good_empty (p : List Nat) : goodNode p TrieNode.empty := by
  simp only [TrieNode.empty, goodNode, goodChildren]
  refine ⟨(fun f h => nomatch h), trivial⟩

/-- A looked-up child of a good children list is good at the extended path. -/
theorem goodChildren_getChild {p : List Nat} :
    ∀ {ch : List (Nat × TrieNode)} {c : Nat} {s : TrieNode},
      goodChildren p ch → TrieNode.getChild ch c = some s →
      goodNode (p ++ [c]) s := by
  intro ch
  induction ch with
  | nil => intro c s _ h; exact Option.noConfusion h
  | cons hd rest ih =>
    obtain ⟨c0, t0⟩ := hd
    intro c s hg hget
    simp only [goodChildren] at hg
    obtain ⟨_, _, hgood, hrest⟩ := hg
    simp only [TrieNode.getChild] at hget
    by_cases h : c0 = c
    · rw [if_pos h] at hget
      cases hget
      subst h
      exact hgood
    · rw [if_neg h] at hget
      exact ih hrest hget

/-- A key bound in the association list is found by `getChild`. -/
theorem getChild_ne_none_of_mem {ch : List (Nat × TrieNode)} {c : Nat}
    {t : TrieNode} (h : (c, t) ∈ ch) : TrieNode.getChild ch c ≠ none := by
  induction ch with
  | nil => simp at h
  | cons hd rest ih =>
    obtain ⟨c0, t0⟩ := hd
    simp only [TrieNode.getChild]
    rcases List.mem_cons.mp h with heq | hmem
    · cases heq; simp
    · by_cases hc : c0 = c
      · simp [hc]
      · rw [if_neg hc]
        exact ih hmem

/-- Records of the written child survive into the updated child list. -/
theorem mem_collectChildren_updateChild {x : Function} {s : TrieNode}
    (hx : x ∈ FunctionTrie.collect_all s) :
    ∀ (ch : List (Nat × TrieNode)) (c : Nat),
      x ∈ FunctionTrie.collectChildren (TrieNode.updateChild ch c s) := by
  intro ch
  induction ch with
  | nil =>
    intro c
    simp only [TrieNode.updateChild, FunctionTrie.collectChildren]
    exact List.mem_append.mpr (Or.inl hx)
  | cons hd rest ih =>
    obtain ⟨c0, t0⟩ := hd
    intro c
    simp only [TrieNode.updateChild]
    by_cases h : c0 = c
    · rw [if_pos h]
      simp only [FunctionTrie.collectChildren]
      exact List.mem_append.mpr (Or.inl hx)
    · rw [if_neg h]
      simp only [FunctionTrie.collectChildren]
      exact List.mem_append.mpr (Or.inr (ih c))

/-- The inserted record is among the stored records afterwards. -/
theorem f_mem_insert (ks : List Nat) :
    ∀ (t : TrieNode) (f : Function),
      f ∈ FunctionTrie.collect_all (TrieNode.insertNode t ks f).1 := by
  induction ks with
  | nil =>
    intro t f
    obtain ⟨ch, v⟩ := t
    simp [TrieNode.insertNode, FunctionTrie.collect_all]
  | cons c rest ih =>
    intro t f
    obtain ⟨ch, v⟩ := t
    simp only [TrieNode.insertNode, FunctionTrie.collect_all]
    exact List.mem_append.mpr
      (Or.inr (mem_collectChildren_updateChild (ih _ f) ch c))

mutual

/-- Under the invariant, every stored record is alias-free. -/
theorem collect_good (t : TrieNode) (p : List Nat) (hg : goodNode p t) :
    ∀ x ∈ FunctionTrie.collect_all t, aliasFree x := by
  obtain ⟨ch, v⟩ := t
  simp only [goodNode] at hg
  intro x hx
  simp only [FunctionTrie.collect_all] at hx
  rcases List.mem_append.mp hx with hv | hch
  · cases v with
    | some f =>
      simp at hv
      rw [hv]
      exact (hg.1 f rfl).2
    | none => simp at hv
  · exact collectCh_good ch p hg.2 x hch

/-- The child-loop version of `collect_good`. -/
theorem collectCh_good (ch : List (Nat × TrieNode)) (p : List Nat)
    (hg : goodChildren p ch) :
    ∀ x ∈ FunctionTrie.collectChildren ch, aliasFree x := by
  cases ch with
  | nil => intro x hx; simp [FunctionTrie.collectChildren] at hx
  | cons hd rest =>
    obtain ⟨c, t⟩ := hd
    simp only [goodChildren] at hg
    intro x hx
    simp only [FunctionTrie.collectChildren] at hx
    rcases List.mem_append.mp hx with h1 | h2
    · exact collect_good t (p ++ [c]) hg.2.2.1 x h1
    · exact collectCh_good rest p hg.2.2.2 x h2

end

/-- Writing a good, inhabited subtree under one key preserves the children
invariant. -/
theorem goodChildren_update {p : List Nat} {c : Nat} {s : TrieNode}
    (hs : goodNode (p ++ [c]) s) (hne : FunctionTrie.collect_all s ≠ []) :
    ∀ {ch : List (Nat × TrieNode)}, goodChildren p ch →
      goodChildren p (TrieNode.updateChild ch c s) := by
  intro ch
  induction ch with
  | nil =>
    intro _
    simp only [TrieNode.updateChild, goodChildren]
    exact ⟨rfl, hne, hs, trivial⟩
  | cons hd rest ih =>
    obtain ⟨c0, t0⟩ := hd
    intro hg
    simp only [goodChildren] at hg
    obtain ⟨hnd, hne0, hg0, hrest⟩ := hg
    simp only [TrieNode.updateChild]
    by_cases h : c0 = c
    · rw [if_pos h]
      subst h
      simp only [goodChildren]
      exact ⟨hnd, hne, hs, hrest⟩
    · rw [if_neg h]
      simp only [goodChildren]
      refine ⟨?_, hne0, hg0, ih hrest⟩
      rw [TrieNode.getChild_updateChild_ne rest c c0 s h]
      exact hnd

/-- `insertNode` preserves the invariant when the key is the lowercased name
of an alias-free record. -/
theorem good_insert (ks : List Nat) :
    ∀ (t : TrieNode) (p : List Nat) (f : Function),
      goodNode p t → toLower f.name = p ++ ks → aliasFree f →
      goodNode p (TrieNode.insertNode t ks f).1 := by
  induction ks with
  | nil =>
    intro t p f hg hname half
    obtain ⟨ch, v⟩ := t
    simp only [TrieNode.insertNode]
    simp only [goodNode] at hg ⊢
    refine ⟨?_, hg.2⟩
    intro g hgf
    cases hgf
    exact ⟨by simpa using hname, half⟩
  | cons c rest ih =>
    intro t p f hg hname half
    obtain ⟨ch, v⟩ := t
    simp only [TrieNode.insertNode]
    simp only [goodNode] at hg ⊢
    refine ⟨hg.1, ?_⟩
    have hchild : goodNode (p ++ [c])
        ((TrieNode.getChild ch c).getD TrieNode.empty) := by
      cases hgc : TrieNode.getChild ch c with
      | some s =>
        simp only [hgc, Option.getD]
        exact goodChildren_getChild hg.2 hgc
      | none =>
        simp only [hgc, Option.getD]
        exact good_empty _
    have hR := ih _ (p ++ [c]) f hchild (by rw [hname]; simp) half
    exact goodChildren_update hR
      (List.ne_nil_of_mem (f_mem_insert rest _ f)) hg.2

end ForgeKit
namespace ForgeKit

/-- Apply `g` to the subtree at path `p`, creating the chain with empty nodes
when missing - the shape of `insertNode` below a fixed path prefix. -/
def updateAt : TrieNode → List Nat → (TrieNode → TrieNode) → TrieNode
  | t, [], g => g t
  | .mk ch v, c :: ks, g =>
    .mk (TrieNode.updateChild ch c
      (updateAt ((TrieNode.getChild ch c).getD TrieNode.empty) ks g)) v

/-- One step of the import fold, acting on a (lowercased path, record) pair. -/
def insertPair (acc : TrieNode) (pr : List Nat × Function) : TrieNode :=
  (TrieNode.insertNode acc pr.1 pr.2).1

/-- `updateAt` at the empty path applies the function in place. -/
theorem updateAt_nil (t : TrieNode) (g : TrieNode → TrieNode) :
    updateAt t [] g = g t := by
  obtain ⟨ch, v⟩ := t
  rfl

/-- Inserting under a composite key is an `updateAt` of the prefix applied to
the insertion of the suffix. -/
theorem insertNode_factor (p : List Nat) :
    ∀ (acc : TrieNode) (k : List Nat) (f : Function),
      (TrieNode.insertNode acc (p ++ k) f).1
        = updateAt acc p (fun s => (TrieNode.insertNode s k f).1) := by
  induction p with
  | nil =>
    intro acc k f
    rw [updateAt_nil]
    rfl
  | cons c p' ih =>
    intro acc k f
    obtain ⟨ch, v⟩ := acc
    simp only [List.cons_append, TrieNode.insertNode, updateAt]
    exact congrArg (fun x => TrieNode.mk (TrieNode.updateChild ch c x) v) (ih _ k f)

/-- Writing the same key twice keeps only the second write. -/
theorem updateChild_updateChild_self (ch : List (Nat × TrieNode)) (c : Nat)
    (a b : TrieNode) :
    TrieNode.updateChild (TrieNode.updateChild ch c a) c b
      = TrieNode.updateChild ch c b := by
  induction ch with
  | nil => simp [TrieNode.updateChild]
  | cons hd rest ih =>
    obtain ⟨c0, t0⟩ := hd
    simp only [TrieNode.updateChild]
    by_cases h : c0 = c
    · simp [TrieNode.updateChild, h]
    · rw [if_neg h]
      simp only [TrieNode.updateChild, if_neg h]
      rw [ih]

/-- Two `updateAt` on the same path compose. -/
theorem updateAt_updateAt (p : List Nat) :
    ∀ (acc : TrieNode) (g1 g2 : TrieNode → TrieNode),
      updateAt (updateAt acc p g1) p g2
        = updateAt acc p (fun s => g2 (g1 s)) := by
  induction p with
  | nil =>
    intro acc g1 g2
    rw [updateAt_nil, updateAt_nil, updateAt_nil]
  | cons c p' ih =>
    intro acc g1 g2
    obtain ⟨ch, v⟩ := acc
    simp only [updateAt, TrieNode.getChild_updateChild_self, Option.getD]
    rw [updateChild_updateChild_self, ih]

/-- Writing an absent key appends the binding at the end - the insertion-order
model of `HashMap::entry(..).or_insert(..)`. -/
theorem updateChild_absent (c : Nat) (s : TrieNode) :
    ∀ (ch : List (Nat × TrieNode)), TrieNode.getChild ch c = none →
      TrieNode.updateChild ch c s = ch ++ [(c, s)] := by
  intro ch
  induction ch with
  | nil => intro _; rfl
  | cons hd rest ih =>
    obtain ⟨c0, t0⟩ := hd
    intro h
    simp only [TrieNode.getChild] at h
    by_cases hc : c0 = c
    · rw [if_pos hc] at h
      exact Option.noConfusion h
    · rw [if_neg hc] at h
      simp only [TrieNode.updateChild, if_neg hc]
      rw [ih h]
      rfl

/-- `getChild` over an appended list tries the left part first. -/
theorem getChild_append (a b : List (Nat × TrieNode)) (c : Nat) :
    TrieNode.getChild (a ++ b) c
      = match TrieNode.getChild a c with
        | some t => some t
        | none => TrieNode.getChild b c := by
  induction a with
  | nil => rfl
  | cons hd rest ih =>
    obtain ⟨c0, t0⟩ := hd
    simp only [List.cons_append, TrieNode.getChild]
    by_cases h : c0 = c
    · simp [h]
    · simp [h, ih]

/-- Folding insertions whose keys share the prefix `p` only rewrites the
subtree at `p` (for a nonempty batch, which is what creates the chain). -/
theorem foldl_insertPair_map (p : List Nat) :
    ∀ (l : List (List Nat × Function)), l ≠ [] → ∀ (acc : TrieNode),
      (l.map (fun pr => (p ++ pr.1, pr.2))).foldl insertPair acc
        = updateAt acc p (fun s => l.foldl insertPair s) := by
  intro l
  induction l with
  | nil => intro h; exact absurd rfl h
  | cons pr l' ih =>
    intro _ acc
    cases l' with
    | nil =>
      simp only [List.map_cons, List.map_nil, List.foldl_cons, List.foldl_nil]
      exact insertNode_factor p acc pr.1 pr.2
    | cons pr2 l'' =>
      rw [List.map_cons, List.foldl_cons]
      rw [show insertPair acc (p ++ pr.1, pr.2)
            = updateAt acc p (fun s => insertPair s pr) from
          insertNode_factor p acc pr.1 pr.2]
      rw [ih (by simp)]
      rw [updateAt_updateAt]
      rfl

end ForgeKit
namespace ForgeKit

mutual

/-- Under the invariant, every DFS pair stores the record at the lowercase of
its own name. -/
theorem dfsRel_wf (t : TrieNode) (p : List Nat) (hg : goodNode p t) :
    ∀ pr ∈ dfsRel t, toLower pr.2.name = p ++ pr.1 := by
  obtain ⟨ch, v⟩ := t
  simp only [goodNode] at hg
  intro pr hpr
  simp only [dfsRel] at hpr
  rcases List.mem_append.mp hpr with h1 | h2
  · cases v with
    | some f =>
      simp at h1
      rw [h1]
      simpa using (hg.1 f rfl).1
    | none => simp at h1
  · exact dfsRelCh_wf ch p hg.2 pr h2

/-- The child-loop version of `dfsRel_wf`. -/
theorem dfsRelCh_wf (ch : List (Nat × TrieNode)) (p : List Nat)
    (hg : goodChildren p ch) :
    ∀ pr ∈ dfsRelCh ch, toLower pr.2.name = p ++ pr.1 := by
  cases ch with
  | nil => intro pr hpr; simp [dfsRelCh] at hpr
  | cons hd rest =>
    obtain ⟨c, t⟩ := hd
    simp only [goodChildren] at hg
    intro pr hpr
    simp only [dfsRelCh] at hpr
    rcases List.mem_append.mp hpr with h1 | h2
    · rcases List.mem_map.mp h1 with ⟨q, hq, hpr'⟩
      have hw := dfsRel_wf t (p ++ [c]) hg.2.2.1 q hq
      rw [← hpr']
      dsimp only
      rw [hw]
      simp
    · exact dfsRelCh_wf rest p hg.2.2.2 pr h2

end

mutual

/-- Re-inserting the DFS pairs of a good trie into an empty node rebuilds the
node exactly, children in the same order. -/
theorem buildRel_node (t : TrieNode) (p : List Nat) (hg : goodNode p t) :
    (dfsRel t).foldl insertPair TrieNode.empty = t := by
  obtain ⟨ch, v⟩ := t
  simp only [goodNode] at hg
  simp only [dfsRel]
  cases v with
  | some f =>
    simp only [List.foldl_append, List.foldl_cons, List.foldl_nil]
    rw [show insertPair TrieNode.empty ([], f) = TrieNode.mk [] (some f) from rfl]
    have hb := buildRel_children ch p (some f) [] hg.2 (fun pr _ => rfl)
    simpa using hb
  | none =>
    simp only [List.nil_append]
    have hb := buildRel_children ch p none [] hg.2 (fun pr _ => rfl)
    simpa using hb

/-- The child-loop version of `buildRel_node`: rebuilding onto a node whose
already-present children are disjoint from the batch appends the batch. -/
theorem buildRel_children (ch : List (Nat × TrieNode)) (p : List Nat)
    (v : Option Function) (done : List (Nat × TrieNode))
    (hg : goodChildren p ch)
    (hdisj : ∀ pr ∈ ch, TrieNode.getChild done pr.1 = none) :
    (dfsRelCh ch).foldl insertPair (TrieNode.mk done v)
      = TrieNode.mk (done ++ ch) v := by
  cases ch with
  | nil => simp [dfsRelCh]
  | cons hd rest =>
    obtain ⟨c, t⟩ := hd
    simp only [goodChildren] at hg
    obtain ⟨hnd, hne, hgt, hgrest⟩ := hg
    simp only [dfsRelCh, List.foldl_append]
    have hlne : dfsRel t ≠ [] := by
      intro h0
      apply hne
      rw [collect_eq_dfsRel t, h0]
      rfl
    have hmap : (dfsRel t).map (fun pr => (c :: pr.1, pr.2))
        = (dfsRel t).map (fun pr => ([c] ++ pr.1, pr.2)) := by simp
    rw [hmap, foldl_insertPair_map [c] (dfsRel t) hlne (TrieNode.mk done v)]
    have hgd : TrieNode.getChild done c = none := hdisj (c, t) (by simp)
    simp only [updateAt, hgd, Option.getD]
    rw [buildRel_node t (p ++ [c]) hgt]
    rw [updateChild_absent c t done hgd]
    rw [buildRel_children rest p v (done ++ [(c, t)]) hgrest ?_]
    · simp
    · intro pr hpr
      rw [getChild_append]
      rw [hdisj pr (List.mem_cons_of_mem _ hpr)]
      simp only [TrieNode.getChild]
      rw [if_neg ?_]
      intro hceq
      rw [hceq] at hnd
      exact getChild_ne_none_of_mem hpr hnd

end

end ForgeKit
namespace ForgeKit

/-- `foldl` respects pointwise equality of the step function on the list. -/
theorem foldl_congr' {α β : Type} (g1 g2 : α → β → α) :
    ∀ (l : List β) (a : α), (∀ x ∈ l, ∀ acc, g1 acc x = g2 acc x) →
      l.foldl g1 a = l.foldl g2 a := by
  intro l
  induction l with
  | nil => intro a _; rfl
  | cons x xs ih =>
    intro a h
    simp only [List.foldl_cons]
    rw [h x (List.mem_cons_self x xs) a]
    exact ih _ (fun y hy acc => h y (List.mem_cons_of_mem x hy) acc)

/-- Re-inserting `collect_all` of a good root under the lowercased names
rebuilds the root exactly. -/
theorem rebuild_root (r : TrieNode) (hg : goodNode [] r) :
    (FunctionTrie.collect_all r).foldl
        (fun a f => (TrieNode.insertNode a (toLower f.name) f).1) TrieNode.empty
      = r := by
  rw [collect_eq_dfsRel r, List.foldl_map]
  rw [foldl_congr'
    (fun a pr => (TrieNode.insertNode a (toLower (Prod.snd pr).name) pr.2).1)
    insertPair (dfsRel r) TrieNode.empty ?_]
  · exact buildRel_node r [] hg
  · intro pr hpr acc
    have hw := dfsRel_wf r [] hg pr hpr
    simp only [List.nil_append] at hw
    simp only [insertPair, hw]

/-- The root of a fold of `FunctionTrie.insert` is the fold of `insertNode`. -/
theorem root_foldl_insert :
    ∀ (l : List Function) (T : FunctionTrie),
      (l.foldl (fun T f => FunctionTrie.insert T f.name f) T).root
        = l.foldl (fun r f => (TrieNode.insertNode r (toLower f.name) f).1)
            T.root := by
  intro l
  induction l with
  | nil => intro T; rfl
  | cons f l' ih =>
    intro T
    simp only [List.foldl_cons]
    rw [ih]
    rfl

/-- Folding name-keyed insertions of alias-free records preserves the
invariant. -/
theorem good_fold :
    ∀ (l : List Function) (r : TrieNode), goodNode [] r →
      (∀ f ∈ l, aliasFree f) →
      goodNode []
        (l.foldl (fun r f => (TrieNode.insertNode r (toLower f.name) f).1) r) := by
  intro l
  induction l with
  | nil => intro r hg _; exact hg
  | cons f l' ih =>
    intro r hg hali
    simp only [List.foldl_cons]
    exact ih _
      (good_insert (toLower f.name) r [] f hg (by simp)
        (hali f (List.mem_cons_self f l')))
      (fun g hgm => hali g (List.mem_cons_of_mem f hgm))

/-- For an alias-free record, `add_functions`'s loop body is a plain insert. -/
theorem registerFunction_aliasFree (T : FunctionTrie) (f : Function)
    (h : aliasFree f) :
    MetadataManager.registerFunction T f = FunctionTrie.insert T f.name f := by
  cases h with
  | inl h => simp [MetadataManager.registerFunction, h]
  | inr h => simp [MetadataManager.registerFunction, h]

/-- `import_cache` of an exported cache always takes the version-match branch
and repopulates from scratch. -/
theorem import_export_ok (m : MetadataManager) :
    MetadataManager.import_cache m (MetadataManager.export_cache m)
      = Except.ok
          { trie := (MetadataManager.all_functions m).foldl
              MetadataManager.registerFunction FunctionTrie.new
            enums := (MetadataManager.all_enums m).foldl
              (fun acc p => mapInsert acc p.1 p.2) []
            events := (MetadataManager.all_events m).foldl
              (fun acc e => mapInsert acc e.name e) [] } := by
  simp only [MetadataManager.import_cache, MetadataManager.export_cache,
    MetadataCache.new]
  rw [if_neg (by simp)]
  simp [MetadataManager.add_functions, MetadataManager.clear, FunctionTrie.clear]

end ForgeKit
namespace ForgeKit

/-- First C5 record: canonical `$aa`, later shadowed. -/
def c5SigZ : Function := { name := bytes "$aa", description := bytes "Z" }

/-- Second C5 record: `$ab` with alias `aa`, whose materialized alias record
initially overwrites `$aa`. -/
def c5SigX : Function :=
  { name := bytes "$ab", description := bytes "X", aliases := some [bytes "aa"] }

/-- Third C5 record: canonical `$aa` again, the final pre-export state. -/
def c5SigY : Function := { name := bytes "$aa", description := bytes "Y" }

/-- The C5 registry: the three records ingested in order, so that `$aa` holds
`c5SigY` but the exported snapshot still carries `c5SigX`'s alias list. -/
def c5Mgr : MetadataManager :=
  MetadataManager.add_functions MetadataManager.new [c5SigZ, c5SigX, c5SigY]

/-- C5 counterexample: in `c5Mgr` the key `$aa` answers the record with
description "Y", but after `import_cache (export_cache c5Mgr)` the alias of
`$ab` is re-materialized after `$aa`'s own record and overwrites it, so the
round-tripped registry answers description "X" - `get_exact` differs, refuting
the round-trip claim for registries with aliases. -/
theorem c5_alias_roundtrip_counterexample :
    (MetadataManager.get_exact c5Mgr (bytes "$aa")).map Function.description
      = some (bytes "Y") ∧
    (match MetadataManager.import_cache c5Mgr
        (MetadataManager.export_cache c5Mgr) with
     | Except.ok m2 =>
        (MetadataManager.get_exact m2 (bytes "$aa")).map Function.description
     | Except.error _ => none)
      = some (bytes "X") := ⟨rfl, rfl⟩

/-- C5 (amended): for a registry built by batch ingestion of alias-free
records, importing the exported cache succeeds and rebuilds the very same
trie root, so `get_exact`, `get_prefix` and `get_completions` answer
identically to the original registry for every query. -/
theorem c5_roundtrip_alias_free_amended (fs : List Function)
    (hali : ∀ f ∈ fs, aliasFree f) :
    ∃ m', MetadataManager.import_cache
        (MetadataManager.add_functions MetadataManager.new fs)
        (MetadataManager.export_cache
          (MetadataManager.add_functions MetadataManager.new fs))
      = Except.ok m'
    ∧ m'.trie.root
        = (MetadataManager.add_functions MetadataManager.new fs).trie.root
    ∧ ∀ q,
        MetadataManager.get_exact m' q
          = MetadataManager.get_exact
              (MetadataManager.add_functions MetadataManager.new fs) q
      ∧ MetadataManager.get_prefix m' q
          = MetadataManager.get_prefix
              (MetadataManager.add_functions MetadataManager.new fs) q
      ∧ MetadataManager.get_completions m' q
          = MetadataManager.get_completions
              (MetadataManager.add_functions MetadataManager.new fs) q := by
  rw [import_export_ok]
  have htrie : (MetadataManager.add_functions MetadataManager.new fs).trie
      = fs.foldl (fun T f => FunctionTrie.insert T f.name f) FunctionTrie.new := by
    simp only [MetadataManager.add_functions]
    exact foldl_congr' _ _ fs FunctionTrie.new
      (fun f hf acc => registerFunction_aliasFree acc f (hali f hf))
  have hroot : (MetadataManager.add_functions MetadataManager.new fs).trie.root
      = fs.foldl (fun r f => (TrieNode.insertNode r (toLower f.name) f).1)
          TrieNode.empty := by
    rw [htrie, root_foldl_insert]
    rfl
  have hgood : goodNode []
      (MetadataManager.add_functions MetadataManager.new fs).trie.root := by
    rw [hroot]
    exact good_fold fs TrieNode.empty (good_empty []) hali
  have hafter : ((MetadataManager.all_functions
        (MetadataManager.add_functions MetadataManager.new fs)).foldl
        MetadataManager.registerFunction FunctionTrie.new).root
      = (MetadataManager.add_functions MetadataManager.new fs).trie.root := by
    have hcg : ∀ f ∈ MetadataManager.all_functions
        (MetadataManager.add_functions MetadataManager.new fs), aliasFree f := by
      intro f hf
      exact collect_good _ [] hgood f hf
    rw [foldl_congr' _ _ _ FunctionTrie.new
      (fun f hf acc => registerFunction_aliasFree acc f (hcg f hf))]
    rw [root_foldl_insert]
    exact rebuild_root _ hgood
  refine ⟨_, rfl, hafter, ?_⟩
  intro q
  refine ⟨?_, ?_, ?_⟩
  · simp only [MetadataManager.get_exact, FunctionTrie.get_exact, hafter]
  · simp only [MetadataManager.get_prefix, FunctionTrie.get_prefix, hafter]
  · simp only [MetadataManager.get_completions, FunctionTrie.get_completions,
      hafter]

/-- The record used to witness the amended C5 round-trip. -/
def c5WSig : Function := { name := bytes "$w", description := bytes "W" }

/-- Witness for the amended C5 theorem at the one-record registry `[c5WSig]`. -/
theorem c5_roundtrip_alias_free_amended_witness :
    (∀ f ∈ [c5WSig], aliasFree f) ∧
    (∃ m', MetadataManager.import_cache
        (MetadataManager.add_functions MetadataManager.new [c5WSig])
        (MetadataManager.export_cache
          (MetadataManager.add_functions MetadataManager.new [c5WSig]))
      = Except.ok m'
    ∧ m'.trie.root
        = (MetadataManager.add_functions MetadataManager.new [c5WSig]).trie.root
    ∧ ∀ q,
        MetadataManager.get_exact m' q
          = MetadataManager.get_exact
              (MetadataManager.add_functions MetadataManager.new [c5WSig]) q
      ∧ MetadataManager.get_prefix m' q
          = MetadataManager.get_prefix
              (MetadataManager.add_functions MetadataManager.new [c5WSig]) q
      ∧ MetadataManager.get_completions m' q
          = MetadataManager.get_completions
              (MetadataManager.add_functions MetadataManager.new [c5WSig]) q) :=
  ⟨fun f hf => by
      rw [List.mem_singleton] at hf
      subst hf
      exact Or.inl rfl,
   c5_roundtrip_alias_free_amended [c5WSig]
     (fun f hf => by
       rw [List.mem_singleton] at hf
       subst hf
       exact Or.inl rfl)⟩

end ForgeKit
